import Mathlib

/-!
Verification of the snapshot-extraction/normalization pipeline of
`src/extensions/COMMANDS/SaveCommand.py` (python-redfish-utility).

The Python data (JSON-decoded records) is shallowly embedded as the
inductive `Value`; Python dictionaries are ordered association lists
(`Dict`), matching CPython's insertion-ordered, unique-key dictionaries.
Python exceptions are modelled by `PyErr`; fallible code returns
`Except PyErr _`.
-/

namespace Save

/-- JSON-like values as produced by decoding the remote API responses. -/
inductive Value where
  | str : String → Value
  | num : Int → Value
  | bool : Bool → Value
  | null : Value
  | list : List Value → Value
  | obj : List (String × Value) → Value

/-- A Python dictionary with string keys: an insertion-ordered association
list.  Real dictionaries have unique keys; theorems that depend on this
carry a `Nodup` hypothesis on the key list. -/
abbrev Dict := List (String × Value)

/-- The exceptions the pipeline can raise.  `keyError`, `typeError` and
`unboundLocal` are plain Python exceptions; the remaining constructors are
the tool's own error types (`iLORisCorruptionError`,
`InvalidFileFormattingError`, `redfish.ris.NothingSelectedError`). -/
inductive PyErr where
  | keyError : PyErr
  | typeError : PyErr
  | unboundLocal : PyErr
  | corruption : PyErr
  | invalidFormat : PyErr
  | nothingSelected : PyErr
deriving DecidableEq

/-- Explicit bind for `Except PyErr`, kept as a plain `match` so proofs can
unfold it directly. -/
def exBind (x : Except PyErr α) (f : α → Except PyErr β) : Except PyErr β :=
  match x with
  | .error e => .error e
  | .ok a => f a

@[simp] theorem exBind_ok (a : α) (f : α → Except PyErr β) :
    exBind (.ok a) f = f a := rfl

@[simp] theorem exBind_error (e : PyErr) (f : α → Except PyErr β) :
    exBind (.error e) f = .error e := rfl

/-- `d[k]` as a total lookup: first pair whose key matches. -/
def dictGet (d : Dict) (k : String) : Option Value :=
  match d with
  | [] => none
  | p :: rest => if p.1 = k then some p.2 else dictGet rest k

/-- `k in d` for a Python dictionary. -/
def hasKey (d : Dict) (k : String) : Bool :=
  match d with
  | [] => false
  | p :: rest => p.1 = k || hasKey rest k

/-- `del d[k]` (on a present key): removes the pair, keeping order. -/
def erase (d : Dict) (k : String) : Dict :=
  match d with
  | [] => []
  | p :: rest => if p.1 = k then erase rest k else p :: erase rest k

/-- In-place mutation `d[k] = v` of an existing key: the pair keeps its
position.  (The pipeline only ever mutates values of keys that are already
present; it never inserts new top-level keys.) -/
def dictSet (d : Dict) (k : String) (v : Value) : Dict :=
  match d with
  | [] => []
  | p :: rest => if p.1 = k then (p.1, v) :: dictSet rest k v else p :: dictSet rest k v

/-- Python truthiness of a value (`if x:`). -/
def truthy : Value → Bool
  | .str s => !(s = "")
  | .num n => !(n = 0)
  | .bool b => b
  | .null => false
  | .list l => !l.isEmpty
  | .obj d => !d.isEmpty

/-- Substring test, modelling Python's `sub in s` for strings. -/
def strContains (s sub : String) : Bool :=
  if sub = "" then true else (s.splitOn sub).length > 1

/-- Python's `sub in v` for a string `sub`: key membership for
dictionaries, element equality for lists, substring for strings;
`TypeError` on numbers, booleans and `None`. -/
def pyContains (v : Value) (sub : String) : Except PyErr Bool :=
  match v with
  | .obj d => .ok (hasKey d sub)
  | .list l => .ok (l.any fun x => match x with | .str s => s = sub | _ => false)
  | .str s => .ok (strContains s sub)
  | _ => .error .typeError

/-! ## Record Extractor: identity lookup (SaveCommand.saveworkerfunction, first half)

`contents = [{val[hrefstring]: val} for val in content]`, falling back for
the *whole batch* to `val["links"]["self"][hrefstring]`, and raising
`iLORisCorruptionError` when the fallback also fails with `KeyError`. -/

/-- `val[href]`: top-level identity lookup of one record. -/
def lookupTop (href : String) (val : Dict) : Except PyErr (Value × Dict) :=
  match dictGet val href with
  | some v => .ok (v, val)
  | none => .error .keyError

/-- `val["links"]["self"][href]`: nested identity lookup of one record.
Subscripting a non-dictionary value raises `TypeError`. -/
def lookupNested (href : String) (val : Dict) : Except PyErr (Value × Dict) :=
  match dictGet val "links" with
  | none => .error .keyError
  | some (.obj links) =>
    match dictGet links "self" with
    | none => .error .keyError
    | some (.obj selfd) =>
      match dictGet selfd href with
      | none => .error .keyError
      | some v => .ok (v, val)
    | some _ => .error .typeError
  | some _ => .error .typeError

/-- Effectful `map` over a list, stopping at the first exception (a Python
list comprehension). -/
def mapExc (f : α → Except PyErr β) : List α → Except PyErr (List β)
  | [] => .ok []
  | a :: l => exBind (f a) fun b => exBind (mapExc f l) fun bs => .ok (b :: bs)

/-- Lines 152–166: build the `{path: record}` list, trying the top-level
convention on the whole batch, then the `links/self` convention on the
whole batch, converting a second `KeyError` into `iLORisCorruptionError`. -/
def mkContents (href : String) (content : List Dict) :
    Except PyErr (List (Value × Dict)) :=
  match mapExc (lookupTop href) content with
  | .ok l => .ok l
  | .error .keyError =>
    match mapExc (lookupNested href) content with
    | .ok l => .ok l
    | .error .keyError => .error .corruption
    | .error e => .error e
  | .error e => .error e

/-! ## Field Redactor (lines 171–206): the per-key loop body -/

/-- The always-drop top-level fields (lines 182–191). -/
def dropNames : List String :=
  ["IPv4Addresses", "IPv6Addresses", "IPv6AddressPolicyTable", "MACAddress",
   "StaticNameServers", "AutoNeg", "FullDuplex", "SpeedMbps"]

/-- The drop-if-non-empty static address-assignment lists (lines 193–197). -/
def staticNames : List String :=
  ["IPv6StaticAddresses", "IPv6StaticDefaultGateways", "IPv4StaticAddresses"]

/-- The protocol-config blocks scrubbed of DNS sub-fields (line 200). -/
def protoNames : List String := ["IPv4", "IPv6", "DHCPv6", "DHCPv4"]

/-- State threaded through the per-key loop: the (mutated) property
mapping and the `typeselector` / `pathselector` locals. -/
structure RState where
  values : Dict
  tsel : Option Value
  psel : Option Value

/-- Lines 178–181: `if dictentry == type_string:` — record the type
selector and path, and delete the type field. -/
def stepType (tstr : String) (path : Value) (k : String) (st : RState) :
    Except PyErr RState :=
  if k = tstr then
    match dictGet st.values k with
    | none => .error .keyError
    | some v => .ok ⟨erase st.values k, some v, some path⟩
  else .ok st

/-- Lines 182–192: unconditional deletion of the always-drop fields. -/
def stepDrop (k : String) (st : RState) : Except PyErr RState :=
  if k ∈ dropNames then
    if hasKey st.values k then .ok ⟨erase st.values k, st.tsel, st.psel⟩
    else .error .keyError
  else .ok st

/-- Lines 193–199: delete a static address list only when truthy. -/
def stepStatic (k : String) (st : RState) : Except PyErr RState :=
  if k ∈ staticNames then
    match dictGet st.values k with
    | none => .error .keyError
    | some v => if truthy v then .ok ⟨erase st.values k, st.tsel, st.psel⟩ else .ok st
  else .ok st

/-- `del values[k][sub]`: delete a sub-field of the block stored at `k`.
Python raises `TypeError` when the block is not a dictionary and
`KeyError` when the sub-field is absent. -/
def delNested1 (values : Dict) (k sub : String) : Except PyErr Dict :=
  match dictGet values k with
  | none => .error .keyError
  | some (.obj d) =>
    if hasKey d sub then .ok (dictSet values k (.obj (erase d sub)))
    else .error .keyError
  | some _ => .error .typeError

/-- `del values["Oem"]["Hpe"][k][sub]`: delete the mirrored sub-field
under the vendor extension.  Every missing link raises `KeyError`; a
non-dictionary link raises `TypeError` (line 203 / 206). -/
def delOem (values : Dict) (k sub : String) : Except PyErr Dict :=
  match dictGet values "Oem" with
  | none => .error .keyError
  | some (.obj oem) =>
    match dictGet oem "Hpe" with
    | none => .error .keyError
    | some (.obj hpe) =>
      match dictGet hpe k with
      | none => .error .keyError
      | some (.obj blk) =>
        if hasKey blk sub then
          .ok (dictSet values "Oem" (.obj (dictSet oem "Hpe"
                 (.obj (dictSet hpe k (.obj (erase blk sub)))))))
        else .error .keyError
      | some _ => .error .typeError
    | some _ => .error .typeError
  | some _ => .error .typeError

/-- One `if <sub> in values[k]: del values[k][<sub>];
del values["Oem"]["Hpe"][k][<sub>]` block (lines 201–203 / 204–206). -/
def delDNSsub (k sub : String) (values : Dict) : Except PyErr Dict :=
  match dictGet values k with
  | none => .error .keyError
  | some v =>
    exBind (pyContains v sub) fun c =>
      if c then exBind (delNested1 values k sub) fun v1 => delOem v1 k sub
      else .ok values

/-- Lines 200–206: scrub `DNSServers` then `UseDNSServers` from a
protocol-config block and its vendor-extension mirror. -/
def stepDNS (k : String) (st : RState) : Except PyErr RState :=
  if k ∈ protoNames then
    exBind (delDNSsub k "DNSServers" st.values) fun v1 =>
      exBind (delDNSsub k "UseDNSServers" v1) fun v2 =>
        .ok ⟨v2, st.tsel, st.psel⟩
  else .ok st

/-- The whole body of `for dictentry in list(values.keys()):` for one key:
the four `if` blocks in sequence (lines 178–206). -/
def redactStep (tstr : String) (path : Value) (k : String) (st : RState) :
    Except PyErr RState :=
  exBind (stepType tstr path k st) fun st1 =>
    exBind (stepDrop k st1) fun st2 =>
      exBind (stepStatic k st2) fun st3 =>
        stepDNS k st3

/-- The key loop itself, over the snapshot `list(values.keys())`. -/
def processKeys (tstr : String) (path : Value) :
    List String → RState → Except PyErr RState
  | [], st => .ok st
  | k :: ks, st =>
    match redactStep tstr path k st with
    | .error e => .error e
    | .ok st' => processKeys tstr path ks st'

/-- Identity removal plus redaction of one record's property mapping. -/
def redactRecord (tstr : String) (path : Value) (values : Dict) :
    Except PyErr RState :=
  processKeys tstr path (values.map Prod.fst) ⟨values, none, none⟩

/-! ## Record assembly (lines 208–220) -/

/-- The extractor's output unit: `{typeselector: {pathselector: values}}`. -/
structure Entry where
  typ : Value
  path : Value
  props : Dict

/-- State of the record loop: `templist` and the function-local
`tempcontents`, which is unbound (`none`) until first assigned — the
`templist.append(tempcontents)` at line 218 sits *outside* the
`if values:` block. -/
structure ExtractState where
  templist : List Entry
  tempcontents : Option Entry

/-- Lines 171–218 for one `{path: values}` record: run the key loop, then
`if values:` build `tempcontents` (raising `InvalidFileFormattingError`
when the type/path selectors are missing or falsy), then unconditionally
append `tempcontents` — which raises `UnboundLocalError` when it was never
assigned. -/
def processRecord (tstr : String) (st : ExtractState) (rec : Value × Dict) :
    Except PyErr ExtractState :=
  exBind (processKeys tstr rec.1 (rec.2.map Prod.fst) ⟨rec.2, none, none⟩) fun rst =>
    let tc :=
      if rst.values.isEmpty then .ok st.tempcontents
      else
        match rst.tsel, rst.psel with
        | some tv, some pv =>
          if truthy tv && truthy pv then .ok (some ⟨tv, pv, rst.values⟩)
          else .error .invalidFormat
        | _, _ => .error .invalidFormat
    exBind tc fun tempcontents =>
      match tempcontents with
      | none => .error .unboundLocal
      | some e => .ok ⟨st.templist ++ [e], some e⟩

/-- Effectful left fold. -/
def foldExc (f : σ → α → Except PyErr σ) : σ → List α → Except PyErr σ
  | st, [] => .ok st
  | st, a :: l =>
    match f st a with
    | .error e => .error e
    | .ok st' => foldExc f st' l

/-- `SaveCommand.saveworkerfunction` (lines 144–220): one extraction pass
over a batch of raw records.  `href` is `typepath.defs.hrefstring`,
`tstr` is `typepath.defs.typestring`. -/
def saveworkerfunction (href tstr : String) (content : List Dict) :
    Except PyErr (List Entry) :=
  exBind (mkContents href content) fun contents =>
    exBind (foldExc (processRecord tstr) ⟨[], none⟩ contents) fun st =>
      .ok st.templist

/-! ## Canonical Sorter: `SaveCommand.nested_sort` (lines 222–235) -/

/-- The key order used by `sorted(..., key=lambda x: x[0])`. -/
def pairLe (a b : String × Value) : Bool := a.1 ≤ b.1

mutual
/-- `nested_sort` applied to a dictionary *value*: recurse only when the
value is itself a dictionary (`isinstance(value, dict)`); lists and
scalars — including dictionaries nested inside lists — are untouched. -/
def sortVal : Value → Value
  | .obj d => .obj (List.mergeSort (sortPairs d) pairLe)
  | .str s => .str s
  | .num n => .num n
  | .bool b => .bool b
  | .null => .null
  | .list l => .list l

/-- The `for key, value in data.items(): if isinstance(value, dict): ...`
pass: replace each dictionary value by its recursively sorted form. -/
def sortPairs : List (String × Value) → List (String × Value)
  | [] => []
  | (k, v) :: rest => (k, sortVal v) :: sortPairs rest
end

/-- `SaveCommand.nested_sort`: sort every nested dictionary value, then
sort the dictionary itself by key. -/
def nested_sort (d : Dict) : Dict :=
  List.mergeSort (sortPairs d) pairLe

mutual
/-- A value is canonical when every dictionary reachable through
dictionary values is key-sorted (the shape `nested_sort` produces). -/
def valCanon : Value → Bool
  | .obj d => dictCanon d
  | _ => true

/-- A dictionary is canonical when its keys are in non-decreasing order
and all its values are canonical. -/
def dictCanon : List (String × Value) → Bool
  | [] => true
  | [p] => valCanon p.2
  | p :: q :: rest => pairLe p q && valCanon p.2 && dictCanon (q :: rest)
end

/-! ## Snapshot Assembler (run lines 111–120, add_save_file_header 272–286) -/

/-- An element of the persisted document: the provenance header followed
by `{type: {path: properties}}` entries. -/
inductive SnapItem where
  | header : Value → SnapItem
  | entry : Entry → SnapItem

/-- `SaveCommand.add_save_file_header`: prepend the header record. -/
def add_save_file_header (headers : Value) (contents : List Entry) :
    List SnapItem :=
  .header headers :: contents.map .entry

/-- Lines 111–120 of `run`, after the extraction passes: concatenate the
passes (`contents += self.saveworkerfunction()`), fail with
`NothingSelectedError` on an empty result, otherwise prepend the header. -/
def assemble (headers : Value) (passes : List (List Entry)) :
    Except PyErr (List SnapItem) :=
  let contents := passes.flatten
  if contents.isEmpty then .error .nothingSelected
  else .ok (add_save_file_header headers contents)

/-! ## Output Encoder and the run-level flow (lines 60–142)

`json.dumps` (with `redfish.ris.JSONEncoder`) and
`Encryption().encrypt_file` live outside `src/`; they are modelled from
the spec as total functions on the embedded values. -/

/-- Modelled from the spec: §4.5 Output Encoder — `json.dumps` via
`redfish.ris.JSONEncoder` (not under `src/`) "serializes to a textual,
key-sorted exchange format"; on the JSON-like `Value` data serialization
is total.  The rendering itself is irrelevant to the claims. -/
def dumpsVal : Value → String
  | .str s => s
  | .num n => toString n
  | .bool b => toString b
  | .null => "null"
  | .list _ => "list"
  | .obj _ => "obj"

/-- Modelled from the spec: serialization of one snapshot element. -/
def dumpsItem : SnapItem → String
  | .header v => dumpsVal v
  | .entry e => dumpsVal e.typ ++ dumpsVal e.path

/-- Modelled from the spec: serialization of the assembled document. -/
def dumps (snap : List SnapItem) : String :=
  String.join (snap.map dumpsItem)

/-- Modelled from the spec: §6 Cipher provider — `Encryption.encrypt_file`
(not under `src/`) "given a key, enciphers a byte sequence"; a total
function of the plaintext and key. -/
def encrypt_file (plaintext key : String) : String :=
  key ++ plaintext

/-- A file-system effect of the save operation: opening the destination
for (truncating) write, and writing the encoded bytes. -/
inductive FileOp where
  | openTrunc : String → FileOp
  | write : String → String → FileOp

/-- Lines 107–137 of `SaveCommand.run`, starting from the extraction
passes: every extraction pass runs, the results are concatenated,
`NothingSelectedError` is raised on an empty result, the header is
prepended, and only then is the destination opened and written once.
The returned trace lists the file effects that occurred. -/
def runSave (href tstr : String) (headers : Value) (batches : List (List Dict))
    (encryption : Option String) (filename : String) :
    Except PyErr Unit × List FileOp :=
  match foldExc (fun acc b =>
      exBind (saveworkerfunction href tstr b) fun l => .ok (acc ++ l))
      [] batches with
  | .error e => (.error e, [])
  | .ok contents =>
    match assemble headers [contents] with
    | .error e => (.error e, [])
    | .ok snap =>
      let data :=
        match encryption with
        | some key => encrypt_file (dumps snap) key
        | none => dumps snap
      (.ok (), [.openTrunc filename, .write filename data])

/-! ## Dictionary lemmas -/

theorem hasKey_iff_mem (d : Dict) (k : String) :
    hasKey d k = true ↔ k ∈ d.map Prod.fst := by
  induction d with
  | nil => simp [hasKey]
  | cons p rest ih =>
    simp only [hasKey, List.map_cons, List.mem_cons, Bool.or_eq_true,
      decide_eq_true_eq, ih]
    constructor
    · rintro (h | h)
      · exact Or.inl h.symm
      · exact Or.inr h
    · rintro (h | h)
      · exact Or.inl h.symm
      · exact Or.inr h

theorem dictGet_eq_none_iff (d : Dict) (k : String) :
    dictGet d k = none ↔ hasKey d k = false := by
  induction d with
  | nil => simp [dictGet, hasKey]
  | cons p rest ih =>
    simp only [dictGet, hasKey]
    by_cases h : p.1 = k <;> simp [h, ih]

theorem dictGet_isSome_of_hasKey {d : Dict} {k : String}
    (h : hasKey d k = true) : ∃ v, dictGet d k = some v := by
  cases hv : dictGet d k with
  | none => rw [dictGet_eq_none_iff] at hv; rw [h] at hv; cases hv
  | some v => exact ⟨v, rfl⟩

theorem dictGet_erase (d : Dict) (k l : String) :
    dictGet (erase d k) l = if l = k then none else dictGet d l := by
  induction d with
  | nil => simp [erase, dictGet]
  | cons p rest ih =>
    simp only [erase]
    by_cases hpk : p.1 = k
    · rw [if_pos hpk, ih]
      by_cases hlk : l = k
      · simp [hlk]
      · simp only [if_neg hlk, dictGet]
        rw [if_neg (by rw [hpk]; exact fun h => hlk h.symm)]
    · rw [if_neg hpk]
      simp only [dictGet, ih]
      by_cases hpl : p.1 = l
      · rw [if_pos hpl, if_neg (by rw [← hpl]; exact hpk), if_pos hpl]
      · rw [if_neg hpl, if_neg hpl]

theorem hasKey_eq_isSome (d : Dict) (l : String) :
    hasKey d l = (dictGet d l).isSome := by
  induction d with
  | nil => simp [hasKey, dictGet]
  | cons p rest ih =>
    simp only [hasKey, dictGet]
    by_cases hpl : p.1 = l <;> simp [hpl, ih]

theorem hasKey_erase (d : Dict) (k l : String) :
    hasKey (erase d k) l = if l = k then false else hasKey d l := by
  rw [hasKey_eq_isSome, dictGet_erase]
  by_cases hlk : l = k <;> simp [hlk, hasKey_eq_isSome]

theorem dictGet_dictSet_ne (d : Dict) (k l : String) (v : Value)
    (h : l ≠ k) : dictGet (dictSet d k v) l = dictGet d l := by
  induction d with
  | nil => simp [dictSet, dictGet]
  | cons p rest ih =>
    simp only [dictSet]
    by_cases hpk : p.1 = k
    · rw [if_pos hpk]
      have hpl : ¬ p.1 = l := by rw [hpk]; exact fun hh => h hh.symm
      simp only [dictGet]
      rw [if_neg hpl, if_neg hpl, ih]
    · rw [if_neg hpk]
      simp only [dictGet, ih]

theorem dictGet_dictSet_self (d : Dict) (k : String) (v : Value)
    (h : hasKey d k = true) : dictGet (dictSet d k v) k = some v := by
  induction d with
  | nil => simp [hasKey] at h
  | cons p rest ih =>
    simp only [dictSet]
    by_cases hpk : p.1 = k
    · rw [if_pos hpk]; simp [dictGet, hpk]
    · rw [if_neg hpk]
      simp only [dictGet]
      rw [if_neg hpk]
      apply ih
      simp only [hasKey, Bool.or_eq_true, decide_eq_true_eq] at h
      rcases h with h | h
      · exact absurd h hpk
      · exact h

theorem hasKey_dictSet (d : Dict) (k l : String) (v : Value) :
    hasKey (dictSet d k v) l = hasKey d l := by
  induction d with
  | nil => simp [dictSet]
  | cons p rest ih =>
    simp only [dictSet]
    by_cases hpk : p.1 = k
    · rw [if_pos hpk]; simp only [hasKey, ih, hpk]
    · rw [if_neg hpk]; simp only [hasKey, ih]

theorem map_fst_dictSet (d : Dict) (k : String) (v : Value) :
    (dictSet d k v).map Prod.fst = d.map Prod.fst := by
  induction d with
  | nil => rfl
  | cons p rest ih =>
    simp only [dictSet]
    by_cases hpk : p.1 = k
    · rw [if_pos hpk]; simp [ih, hpk]
    · rw [if_neg hpk]; simp [ih]

theorem map_fst_erase_sublist (d : Dict) (k : String) :
    ((erase d k).map Prod.fst).Sublist (d.map Prod.fst) := by
  induction d with
  | nil => simp [erase]
  | cons p rest ih =>
    simp only [erase]
    by_cases hpk : p.1 = k
    · rw [if_pos hpk]
      exact ih.trans (List.sublist_cons_self _ _)
    · rw [if_neg hpk]
      simpa using ih.cons₂ p.1

/-! ## Step characterization lemmas -/

/-- The nested-block mirror test: `values["Oem"]["Hpe"][k]` exists, is a
dictionary, and contains `sub`. -/
def mirrorHas (values : Dict) (k sub : String) : Bool :=
  match dictGet values "Oem" with
  | some (.obj oem) =>
    match dictGet oem "Hpe" with
    | some (.obj hpe) =>
      match dictGet hpe k with
      | some (.obj blk) => hasKey blk sub
      | _ => false
    | _ => false
  | _ => false

theorem stepType_ok {tstr : String} {path : Value} {k : String}
    {st st' : RState} (h : stepType tstr path k st = .ok st') :
    (k ≠ tstr ∧ st' = st) ∨
    (k = tstr ∧ ∃ v, dictGet st.values k = some v ∧
      st' = ⟨erase st.values k, some v, some path⟩) := by
  unfold stepType at h
  by_cases hk : k = tstr
  · rw [if_pos hk] at h
    cases hv : dictGet st.values k with
    | none => rw [hv] at h; cases h
    | some v =>
      rw [hv] at h
      simp only [Except.ok.injEq] at h
      exact Or.inr ⟨hk, v, rfl, h.symm⟩
  · rw [if_neg hk] at h
    simp only [Except.ok.injEq] at h
    exact Or.inl ⟨hk, h.symm⟩

theorem stepType_of_ne {tstr : String} {path : Value} {k : String}
    (st : RState) (h : k ≠ tstr) : stepType tstr path k st = .ok st := by
  unfold stepType
  rw [if_neg h]

theorem stepDrop_ok {k : String} {st st' : RState}
    (h : stepDrop k st = .ok st') :
    (k ∉ dropNames ∧ st' = st) ∨
    (k ∈ dropNames ∧ hasKey st.values k = true ∧
      st' = ⟨erase st.values k, st.tsel, st.psel⟩) := by
  unfold stepDrop at h
  by_cases hk : k ∈ dropNames
  · rw [if_pos hk] at h
    cases hh : hasKey st.values k with
    | false => rw [hh] at h; simp at h
    | true =>
      rw [hh] at h
      simp only [if_true] at h
      simp only [Except.ok.injEq] at h
      exact Or.inr ⟨hk, rfl, h.symm⟩
  · rw [if_neg hk] at h
    simp only [Except.ok.injEq] at h
    exact Or.inl ⟨hk, h.symm⟩

theorem stepDrop_of_not_mem {k : String} (st : RState)
    (h : k ∉ dropNames) : stepDrop k st = .ok st := by
  unfold stepDrop
  rw [if_neg h]

theorem stepStatic_ok {k : String} {st st' : RState}
    (h : stepStatic k st = .ok st') :
    (k ∉ staticNames ∧ st' = st) ∨
    (k ∈ staticNames ∧ ∃ v, dictGet st.values k = some v ∧
      ((truthy v = true ∧ st' = ⟨erase st.values k, st.tsel, st.psel⟩) ∨
       (truthy v = false ∧ st' = st))) := by
  unfold stepStatic at h
  by_cases hk : k ∈ staticNames
  · rw [if_pos hk] at h
    cases hv : dictGet st.values k with
    | none => rw [hv] at h; cases h
    | some v =>
      rw [hv] at h
      dsimp only at h
      cases ht : truthy v with
      | true =>
        rw [ht] at h
        simp only [if_true, Except.ok.injEq] at h
        exact Or.inr ⟨hk, v, rfl, Or.inl ⟨ht, h.symm⟩⟩
      | false =>
        rw [ht] at h
        simp only [Bool.false_eq_true, if_false, Except.ok.injEq] at h
        exact Or.inr ⟨hk, v, rfl, Or.inr ⟨ht, h.symm⟩⟩
  · rw [if_neg hk] at h
    simp only [Except.ok.injEq] at h
    exact Or.inl ⟨hk, h.symm⟩

theorem stepStatic_of_not_mem {k : String} (st : RState)
    (h : k ∉ staticNames) : stepStatic k st = .ok st := by
  unfold stepStatic
  rw [if_neg h]

theorem stepStatic_of_falsy {k : String} {st : RState} {v : Value}
    (hk : k ∈ staticNames) (hv : dictGet st.values k = some v)
    (ht : truthy v = false) : stepStatic k st = .ok st := by
  unfold stepStatic
  rw [if_pos hk, hv]
  dsimp only
  rw [ht]
  simp

theorem delNested1_ok {values : Dict} {k sub : String} {w : Dict}
    (h : delNested1 values k sub = .ok w) :
    ∃ blk, dictGet values k = some (.obj blk) ∧ hasKey blk sub = true ∧
      w = dictSet values k (.obj (erase blk sub)) := by
  unfold delNested1 at h
  split at h
  · cases h
  · rename_i blk heq
    split at h
    · rename_i hs
      simp only [Except.ok.injEq] at h
      exact ⟨blk, heq, hs, h.symm⟩
    · cases h
  · cases h

theorem delOem_ok {values : Dict} {k sub : String} {w : Dict}
    (h : delOem values k sub = .ok w) :
    ∃ oem hpe blk, dictGet values "Oem" = some (.obj oem) ∧
      dictGet oem "Hpe" = some (.obj hpe) ∧
      dictGet hpe k = some (.obj blk) ∧ hasKey blk sub = true ∧
      w = dictSet values "Oem" (.obj (dictSet oem "Hpe"
            (.obj (dictSet hpe k (.obj (erase blk sub)))))) := by
  unfold delOem at h
  split at h
  · cases h
  · rename_i oem ho
    split at h
    · cases h
    · rename_i hpe hh
      split at h
      · cases h
      · rename_i blk hk
        split at h
        · rename_i hs
          simp only [Except.ok.injEq] at h
          exact ⟨oem, hpe, blk, ho, hh, hk, hs, h.symm⟩
        · cases h
      · cases h
    · cases h
  · cases h

theorem delDNSsub_ok {k sub : String} {values w : Dict}
    (h : delDNSsub k sub values = .ok w) :
    ∃ v, dictGet values k = some v ∧
      ((pyContains v sub = .ok false ∧ w = values) ∨
       (pyContains v sub = .ok true ∧
        ∃ v1, delNested1 values k sub = .ok v1 ∧ delOem v1 k sub = .ok w)) := by
  unfold delDNSsub at h
  cases hv : dictGet values k with
  | none => rw [hv] at h; cases h
  | some v =>
    rw [hv] at h
    dsimp only at h
    cases hc : pyContains v sub with
    | error e => rw [hc] at h; cases h
    | ok c =>
      rw [hc] at h
      cases c with
      | false =>
        simp only [exBind_ok, Bool.false_eq_true, if_false,
          Except.ok.injEq] at h
        exact ⟨v, rfl, Or.inl ⟨hc, h.symm⟩⟩
      | true =>
        simp only [exBind_ok, if_true] at h
        cases h1 : delNested1 values k sub with
        | error e => rw [h1] at h; cases h
        | ok v1 =>
          rw [h1] at h
          simp only [exBind_ok] at h
          exact ⟨v, rfl, Or.inr ⟨hc, v1, rfl, h⟩⟩

theorem delDNSsub_of_absent {k sub : String} {values : Dict} {v : Value}
    (hv : dictGet values k = some v) (hc : pyContains v sub = .ok false) :
    delDNSsub k sub values = .ok values := by
  unfold delDNSsub
  rw [hv]
  dsimp only
  rw [hc]
  simp

theorem stepDNS_ok {k : String} {st st' : RState}
    (h : stepDNS k st = .ok st') :
    (k ∉ protoNames ∧ st' = st) ∨
    (k ∈ protoNames ∧ ∃ v1 v2, delDNSsub k "DNSServers" st.values = .ok v1 ∧
      delDNSsub k "UseDNSServers" v1 = .ok v2 ∧
      st' = ⟨v2, st.tsel, st.psel⟩) := by
  unfold stepDNS at h
  by_cases hk : k ∈ protoNames
  · rw [if_pos hk] at h
    cases h1 : delDNSsub k "DNSServers" st.values with
    | error e => rw [h1] at h; cases h
    | ok v1 =>
      rw [h1] at h
      simp only [exBind_ok] at h
      cases h2 : delDNSsub k "UseDNSServers" v1 with
      | error e => rw [h2] at h; cases h
      | ok v2 =>
        rw [h2] at h
        simp only [exBind_ok, Except.ok.injEq] at h
        exact Or.inr ⟨hk, v1, v2, rfl, h2, h.symm⟩
  · rw [if_neg hk] at h
    simp only [Except.ok.injEq] at h
    exact Or.inl ⟨hk, h.symm⟩

theorem stepDNS_of_not_mem {k : String} (st : RState)
    (h : k ∉ protoNames) : stepDNS k st = .ok st := by
  unfold stepDNS
  rw [if_neg h]

theorem redactStep_decompose {tstr : String} {path : Value} {k : String}
    {st st' : RState} (h : redactStep tstr path k st = .ok st') :
    ∃ st1 st2 st3, stepType tstr path k st = .ok st1 ∧
      stepDrop k st1 = .ok st2 ∧ stepStatic k st2 = .ok st3 ∧
      stepDNS k st3 = .ok st' := by
  unfold redactStep at h
  cases h1 : stepType tstr path k st with
  | error e => rw [h1] at h; cases h
  | ok st1 =>
    rw [h1] at h
    simp only [exBind_ok] at h
    cases h2 : stepDrop k st1 with
    | error e => rw [h2] at h; cases h
    | ok st2 =>
      rw [h2] at h
      simp only [exBind_ok] at h
      cases h3 : stepStatic k st2 with
      | error e => rw [h3] at h; cases h
      | ok st3 =>
        rw [h3] at h
        simp only [exBind_ok] at h
        exact ⟨st1, st2, st3, rfl, h2, h3, h⟩

/-! ## Derived step lemmas -/

theorem static_not_proto : ∀ n ∈ staticNames, n ∉ protoNames := by decide

theorem static_ne_oem : ∀ n ∈ staticNames, n ≠ "Oem" := by decide

theorem proto_ne_oem : ∀ n ∈ protoNames, n ≠ "Oem" := by decide

theorem drop_ne_oem : ∀ n ∈ dropNames, n ≠ "Oem" := by decide

theorem delDNSsub_keys {k sub : String} {values w : Dict}
    (h : delDNSsub k sub values = .ok w) :
    w.map Prod.fst = values.map Prod.fst := by
  rcases delDNSsub_ok h with ⟨v, hv, hcase⟩
  rcases hcase with ⟨hc, rfl⟩ | ⟨hc, v1, h1, h2⟩
  · rfl
  · rcases delNested1_ok h1 with ⟨blk, hb, hs, rfl⟩
    rcases delOem_ok h2 with ⟨oem, hpe, blk2, ho, hh, hk2, hs2, rfl⟩
    rw [map_fst_dictSet, map_fst_dictSet]

theorem delDNSsub_get_other {k sub : String} {values w : Dict} {l : String}
    (h : delDNSsub k sub values = .ok w) (hlk : l ≠ k) (hlo : l ≠ "Oem") :
    dictGet w l = dictGet values l := by
  rcases delDNSsub_ok h with ⟨v, hv, hcase⟩
  rcases hcase with ⟨hc, rfl⟩ | ⟨hc, v1, h1, h2⟩
  · rfl
  · rcases delNested1_ok h1 with ⟨blk, hb, hs, rfl⟩
    rcases delOem_ok h2 with ⟨oem, hpe, blk2, ho, hh, hk2, hs2, rfl⟩
    rw [dictGet_dictSet_ne _ _ _ _ hlo, dictGet_dictSet_ne _ _ _ _ hlk]

theorem delDNSsub_hasKey {k sub : String} {values w : Dict} (l : String)
    (h : delDNSsub k sub values = .ok w) :
    hasKey w l = hasKey values l := by
  have hkeys := delDNSsub_keys h
  cases hb : hasKey values l with
  | true =>
    have hm := (hasKey_iff_mem values l).mp hb
    rw [← hkeys] at hm
    exact (hasKey_iff_mem w l).mpr hm
  | false =>
    cases hb2 : hasKey w l with
    | false => rfl
    | true =>
      have hm := (hasKey_iff_mem w l).mp hb2
      rw [hkeys] at hm
      rw [(hasKey_iff_mem values l).mpr hm] at hb
      cases hb

theorem redactStep_keys_sublist {tstr : String} {path : Value} {k : String}
    {st st' : RState} (h : redactStep tstr path k st = .ok st') :
    (st'.values.map Prod.fst).Sublist (st.values.map Prod.fst) := by
  rcases redactStep_decompose h with ⟨st1, st2, st3, h1, h2, h3, h4⟩
  have s1 : (st1.values.map Prod.fst).Sublist (st.values.map Prod.fst) := by
    rcases stepType_ok h1 with ⟨_, rfl⟩ | ⟨_, v, hv, rfl⟩
    · exact List.Sublist.refl _
    · exact map_fst_erase_sublist _ _
  have s2 : (st2.values.map Prod.fst).Sublist (st1.values.map Prod.fst) := by
    rcases stepDrop_ok h2 with ⟨_, rfl⟩ | ⟨_, _, rfl⟩
    · exact List.Sublist.refl _
    · exact map_fst_erase_sublist _ _
  have s3 : (st3.values.map Prod.fst).Sublist (st2.values.map Prod.fst) := by
    rcases stepStatic_ok h3 with ⟨_, rfl⟩ | ⟨_, v, hv, hcase⟩
    · exact List.Sublist.refl _
    · rcases hcase with ⟨_, rfl⟩ | ⟨_, rfl⟩
      · exact map_fst_erase_sublist _ _
      · exact List.Sublist.refl _
  have s4 : (st'.values.map Prod.fst).Sublist (st3.values.map Prod.fst) := by
    rcases stepDNS_ok h4 with ⟨_, rfl⟩ | ⟨_, v1, v2, hd1, hd2, rfl⟩
    · exact List.Sublist.refl _
    · rw [delDNSsub_keys hd2, delDNSsub_keys hd1]
  exact ((s4.trans s3).trans s2).trans s1

theorem redactStep_get_other {tstr : String} {path : Value} {k : String}
    {st st' : RState} {l : String} (h : redactStep tstr path k st = .ok st')
    (hlk : l ≠ k) (hlo : l ≠ "Oem") :
    dictGet st'.values l = dictGet st.values l := by
  rcases redactStep_decompose h with ⟨st1, st2, st3, h1, h2, h3, h4⟩
  have e1 : dictGet st1.values l = dictGet st.values l := by
    rcases stepType_ok h1 with ⟨_, rfl⟩ | ⟨hkt, v, hv, rfl⟩
    · rfl
    · simp only [dictGet_erase]
      rw [if_neg hlk]
  have e2 : dictGet st2.values l = dictGet st1.values l := by
    rcases stepDrop_ok h2 with ⟨_, rfl⟩ | ⟨_, _, rfl⟩
    · rfl
    · simp only [dictGet_erase]
      rw [if_neg hlk]
  have e3 : dictGet st3.values l = dictGet st2.values l := by
    rcases stepStatic_ok h3 with ⟨_, rfl⟩ | ⟨_, v, hv, hcase⟩
    · rfl
    · rcases hcase with ⟨_, rfl⟩ | ⟨_, rfl⟩
      · simp only [dictGet_erase]
        rw [if_neg hlk]
      · rfl
  have e4 : dictGet st'.values l = dictGet st3.values l := by
    rcases stepDNS_ok h4 with ⟨_, rfl⟩ | ⟨_, v1, v2, hd1, hd2, rfl⟩
    · rfl
    · rw [show (RState.mk v2 st3.tsel st3.psel).values = v2 from rfl,
        delDNSsub_get_other hd2 hlk hlo, delDNSsub_get_other hd1 hlk hlo]
  rw [e4, e3, e2, e1]

theorem redactStep_hasKey_other {tstr : String} {path : Value} {k : String}
    {st st' : RState} {l : String} (h : redactStep tstr path k st = .ok st')
    (hlk : l ≠ k) : hasKey st'.values l = hasKey st.values l := by
  rcases redactStep_decompose h with ⟨st1, st2, st3, h1, h2, h3, h4⟩
  have e1 : hasKey st1.values l = hasKey st.values l := by
    rcases stepType_ok h1 with ⟨_, rfl⟩ | ⟨hkt, v, hv, rfl⟩
    · rfl
    · simp only [hasKey_erase]
      rw [if_neg hlk]
  have e2 : hasKey st2.values l = hasKey st1.values l := by
    rcases stepDrop_ok h2 with ⟨_, rfl⟩ | ⟨_, _, rfl⟩
    · rfl
    · simp only [hasKey_erase]
      rw [if_neg hlk]
  have e3 : hasKey st3.values l = hasKey st2.values l := by
    rcases stepStatic_ok h3 with ⟨_, rfl⟩ | ⟨_, v, hv, hcase⟩
    · rfl
    · rcases hcase with ⟨_, rfl⟩ | ⟨_, rfl⟩
      · simp only [hasKey_erase]
        rw [if_neg hlk]
      · rfl
  have e4 : hasKey st'.values l = hasKey st3.values l := by
    rcases stepDNS_ok h4 with ⟨_, rfl⟩ | ⟨_, v1, v2, hd1, hd2, rfl⟩
    · rfl
    · rw [show (RState.mk v2 st3.tsel st3.psel).values = v2 from rfl,
        delDNSsub_hasKey l hd2, delDNSsub_hasKey l hd1]
  rw [e4, e3, e2, e1]

theorem redactStep_drop_self {tstr : String} {path : Value} {k : String}
    {st st' : RState} (hk : k ∈ dropNames)
    (h : redactStep tstr path k st = .ok st') :
    hasKey st'.values k = false := by
  rcases redactStep_decompose h with ⟨st1, st2, st3, h1, h2, h3, h4⟩
  have habs2 : hasKey st2.values k = false := by
    rcases stepDrop_ok h2 with ⟨hnk, _⟩ | ⟨_, _, rfl⟩
    · exact absurd hk hnk
    · simp [hasKey_erase]
  have habs3 : hasKey st3.values k = false := by
    rcases stepStatic_ok h3 with ⟨_, rfl⟩ | ⟨_, v, hv, hcase⟩
    · exact habs2
    · rw [hasKey_eq_isSome, hv] at habs2
      cases habs2
  rcases stepDNS_ok h4 with ⟨_, rfl⟩ | ⟨_, v1, v2, hd1, hd2, rfl⟩
  · exact habs3
  · rcases delDNSsub_ok hd1 with ⟨v, hv, _⟩
    rw [hasKey_eq_isSome, hv] at habs3
    cases habs3

theorem redactStep_tstr_self {tstr : String} {path : Value}
    {st st' : RState} (h : redactStep tstr path tstr st = .ok st') :
    hasKey st'.values tstr = false := by
  rcases redactStep_decompose h with ⟨st1, st2, st3, h1, h2, h3, h4⟩
  have habs1 : hasKey st1.values tstr = false := by
    rcases stepType_ok h1 with ⟨hne, _⟩ | ⟨_, v, hv, rfl⟩
    · exact absurd rfl hne
    · simp [hasKey_erase]
  have habs2 : hasKey st2.values tstr = false := by
    rcases stepDrop_ok h2 with ⟨_, rfl⟩ | ⟨_, hhk, rfl⟩
    · exact habs1
    · rw [hhk] at habs1; cases habs1
  have habs3 : hasKey st3.values tstr = false := by
    rcases stepStatic_ok h3 with ⟨_, rfl⟩ | ⟨_, v, hv, hcase⟩
    · exact habs2
    · rw [hasKey_eq_isSome, hv] at habs2
      cases habs2
  rcases stepDNS_ok h4 with ⟨_, rfl⟩ | ⟨_, v1, v2, hd1, hd2, rfl⟩
  · exact habs3
  · rcases delDNSsub_ok hd1 with ⟨v, hv, _⟩
    rw [hasKey_eq_isSome, hv] at habs3
    cases habs3

theorem redactStep_static_self {tstr : String} {path : Value} {k : String}
    {st st' : RState} (hk : k ∈ staticNames)
    (h : redactStep tstr path k st = .ok st') :
    ∃ v, dictGet st.values k = some v ∧
      dictGet st'.values k = (if truthy v = true then none else some v) := by
  rcases redactStep_decompose h with ⟨st1, st2, st3, h1, h2, h3, h4⟩
  rcases stepStatic_ok h3 with ⟨hnk, _⟩ | ⟨_, v, hv2, hcase⟩
  · exact absurd hk hnk
  have hst1 : st1 = st := by
    rcases stepType_ok h1 with ⟨_, rfl⟩ | ⟨hkt, w, hw, rfl⟩
    · rfl
    · exfalso
      rcases stepDrop_ok h2 with ⟨_, rfl⟩ | ⟨_, hhk, _⟩
      · simp [dictGet_erase] at hv2
      · simp [hasKey_erase] at hhk
  have hst2 : st2 = st1 := by
    rcases stepDrop_ok h2 with ⟨_, rfl⟩ | ⟨_, hhk, rfl⟩
    · rfl
    · exfalso
      simp [dictGet_erase] at hv2
  have hv0 := hv2
  rw [hst2, hst1] at hv0
  refine ⟨v, hv0, ?_⟩
  have hdns : st'.values = st3.values := by
    rcases stepDNS_ok h4 with ⟨_, rfl⟩ | ⟨hpk, _, _, _, _, _⟩
    · rfl
    · exact absurd hpk (static_not_proto k hk)
  rcases hcase with ⟨ht, rfl⟩ | ⟨ht, rfl⟩
  · simp [ht, hdns, dictGet_erase]
  · simp [ht, hdns, hv2]

/-! ## Mirror lemmas -/

theorem mirrorHas_erase {d : Dict} {e q sub : String}
    (h : mirrorHas (erase d e) q sub = true) : mirrorHas d q sub = true := by
  unfold mirrorHas at h ⊢
  rw [dictGet_erase] at h
  by_cases ho : "Oem" = e
  · rw [if_pos ho] at h
    cases h
  · rw [if_neg ho] at h
    exact h

theorem mirrorHas_dictSet_ne (d : Dict) {e : String} (v : Value)
    (q sub : String) (he : e ≠ "Oem") :
    mirrorHas (dictSet d e v) q sub = mirrorHas d q sub := by
  unfold mirrorHas
  rw [dictGet_dictSet_ne _ _ _ _ (fun hh => he hh.symm)]

theorem delOem_mirror_ne {values w : Dict} {kk sub' : String}
    (h : delOem values kk sub' = .ok w) {q : String} (hq : q ≠ kk)
    (sub : String) : mirrorHas w q sub = mirrorHas values q sub := by
  rcases delOem_ok h with ⟨oem, hpe, blk, ho, hh, hk2, hs2, rfl⟩
  have h1 : dictGet (dictSet values "Oem" (Value.obj (dictSet oem "Hpe"
      (Value.obj (dictSet hpe kk (Value.obj (erase blk sub'))))))) "Oem"
      = some (Value.obj (dictSet oem "Hpe"
          (Value.obj (dictSet hpe kk (Value.obj (erase blk sub')))))) :=
    dictGet_dictSet_self _ _ _ (by rw [hasKey_eq_isSome, ho]; rfl)
  have h2 : dictGet (dictSet oem "Hpe" (Value.obj (dictSet hpe kk
      (Value.obj (erase blk sub'))))) "Hpe"
      = some (Value.obj (dictSet hpe kk (Value.obj (erase blk sub')))) :=
    dictGet_dictSet_self _ _ _ (by rw [hasKey_eq_isSome, hh]; rfl)
  have h3 : dictGet (dictSet hpe kk (Value.obj (erase blk sub'))) q
      = dictGet hpe q := dictGet_dictSet_ne _ _ _ _ hq
  unfold mirrorHas
  simp only [h1, h2, h3, ho, hh]

theorem delOem_mirror_self_mono {values w : Dict} {kk sub' : String}
    (h : delOem values kk sub' = .ok w) {sub : String}
    (hm : mirrorHas w kk sub = true) : mirrorHas values kk sub = true := by
  rcases delOem_ok h with ⟨oem, hpe, blk, ho, hh, hk2, hs2, rfl⟩
  have h1 : dictGet (dictSet values "Oem" (Value.obj (dictSet oem "Hpe"
      (Value.obj (dictSet hpe kk (Value.obj (erase blk sub'))))))) "Oem"
      = some (Value.obj (dictSet oem "Hpe"
          (Value.obj (dictSet hpe kk (Value.obj (erase blk sub')))))) :=
    dictGet_dictSet_self _ _ _ (by rw [hasKey_eq_isSome, ho]; rfl)
  have h2 : dictGet (dictSet oem "Hpe" (Value.obj (dictSet hpe kk
      (Value.obj (erase blk sub'))))) "Hpe"
      = some (Value.obj (dictSet hpe kk (Value.obj (erase blk sub')))) :=
    dictGet_dictSet_self _ _ _ (by rw [hasKey_eq_isSome, hh]; rfl)
  have h3 : dictGet (dictSet hpe kk (Value.obj (erase blk sub'))) kk
      = some (Value.obj (erase blk sub')) :=
    dictGet_dictSet_self _ _ _ (by rw [hasKey_eq_isSome, hk2]; rfl)
  unfold mirrorHas at hm ⊢
  simp only [h1, h2, h3] at hm
  simp only [ho, hh, hk2]
  rw [hasKey_erase] at hm
  by_cases hss : sub = sub'
  · rw [if_pos hss] at hm
    cases hm
  · rw [if_neg hss] at hm
    exact hm

theorem delOem_mirror_self_erased {values w : Dict} {kk sub' : String}
    (h : delOem values kk sub' = .ok w) :
    mirrorHas w kk sub' = false := by
  rcases delOem_ok h with ⟨oem, hpe, blk, ho, hh, hk2, hs2, rfl⟩
  have h1 : dictGet (dictSet values "Oem" (Value.obj (dictSet oem "Hpe"
      (Value.obj (dictSet hpe kk (Value.obj (erase blk sub'))))))) "Oem"
      = some (Value.obj (dictSet oem "Hpe"
          (Value.obj (dictSet hpe kk (Value.obj (erase blk sub')))))) :=
    dictGet_dictSet_self _ _ _ (by rw [hasKey_eq_isSome, ho]; rfl)
  have h2 : dictGet (dictSet oem "Hpe" (Value.obj (dictSet hpe kk
      (Value.obj (erase blk sub'))))) "Hpe"
      = some (Value.obj (dictSet hpe kk (Value.obj (erase blk sub')))) :=
    dictGet_dictSet_self _ _ _ (by rw [hasKey_eq_isSome, hh]; rfl)
  have h3 : dictGet (dictSet hpe kk (Value.obj (erase blk sub'))) kk
      = some (Value.obj (erase blk sub')) :=
    dictGet_dictSet_self _ _ _ (by rw [hasKey_eq_isSome, hk2]; rfl)
  unfold mirrorHas
  simp only [h1, h2, h3]
  rw [hasKey_erase, if_pos rfl]

theorem delDNSsub_mirror_mono {k sub' : String} {values w : Dict}
    (h : delDNSsub k sub' values = .ok w) (hko : k ≠ "Oem")
    {q sub : String} (hm : mirrorHas w q sub = true) :
    mirrorHas values q sub = true := by
  rcases delDNSsub_ok h with ⟨v, hv, hcase⟩
  rcases hcase with ⟨hc, rfl⟩ | ⟨hc, v1, h1, h2⟩
  · exact hm
  · rcases delNested1_ok h1 with ⟨blk, hb, hs, rfl⟩
    by_cases hq : q = k
    · subst hq
      have := delOem_mirror_self_mono h2 hm
      rwa [mirrorHas_dictSet_ne _ _ _ _ hko] at this
    · have := (delOem_mirror_ne h2 hq sub) ▸ hm
      rwa [mirrorHas_dictSet_ne _ _ _ _ hko] at this

theorem redactStep_mirror_mono {tstr : String} {path : Value} {k : String}
    {st st' : RState} (h : redactStep tstr path k st = .ok st')
    {q sub : String} (hm : mirrorHas st'.values q sub = true) :
    mirrorHas st.values q sub = true := by
  rcases redactStep_decompose h with ⟨st1, st2, st3, h1, h2, h3, h4⟩
  have m4 : mirrorHas st3.values q sub = true := by
    rcases stepDNS_ok h4 with ⟨_, rfl⟩ | ⟨hpk, v1, v2, hd1, hd2, rfl⟩
    · exact hm
    · have hko := proto_ne_oem k hpk
      exact delDNSsub_mirror_mono hd1 hko (delDNSsub_mirror_mono hd2 hko hm)
  have m3 : mirrorHas st2.values q sub = true := by
    rcases stepStatic_ok h3 with ⟨_, rfl⟩ | ⟨_, v, hv, hcase⟩
    · exact m4
    · rcases hcase with ⟨_, rfl⟩ | ⟨_, rfl⟩
      · exact mirrorHas_erase m4
      · exact m4
  have m2 : mirrorHas st1.values q sub = true := by
    rcases stepDrop_ok h2 with ⟨_, rfl⟩ | ⟨_, _, rfl⟩
    · exact m3
    · exact mirrorHas_erase m3
  rcases stepType_ok h1 with ⟨_, rfl⟩ | ⟨_, v, hv, rfl⟩
  · exact m2
  · exact mirrorHas_erase m2

/-! ## Protocol-block self-effect lemmas -/

theorem delDNSsub_self_char {k sub : String} {values w : Dict}
    (h : delDNSsub k sub values = .ok w) (hko : k ≠ "Oem") :
    ∃ v v', dictGet values k = some v ∧ dictGet w k = some v' ∧
      pyContains v' sub = .ok false ∧
      (∀ s2, s2 ≠ sub → pyContains v' s2 = pyContains v s2) := by
  rcases delDNSsub_ok h with ⟨v, hv, hcase⟩
  rcases hcase with ⟨hc, rfl⟩ | ⟨hc, v1, h1, h2⟩
  · exact ⟨v, v, hv, hv, hc, fun s2 _ => rfl⟩
  · rcases delNested1_ok h1 with ⟨blk, hb, hs, rfl⟩
    rw [hb] at hv
    cases hv
    have hkk : hasKey values k = true := by rw [hasKey_eq_isSome, hb]; rfl
    have hget1 : dictGet (dictSet values k (Value.obj (erase blk sub))) k
        = some (Value.obj (erase blk sub)) := dictGet_dictSet_self _ _ _ hkk
    rcases delOem_ok h2 with ⟨oem, hpe, blk2, ho, hh, hk2, hs2, rfl⟩
    have hgetw : dictGet (dictSet (dictSet values k (Value.obj (erase blk sub)))
        "Oem" (Value.obj (dictSet oem "Hpe" (Value.obj (dictSet hpe k
        (Value.obj (erase blk2 sub))))))) k = some (Value.obj (erase blk sub)) := by
      rw [dictGet_dictSet_ne _ _ _ _ hko]
      exact hget1
    refine ⟨Value.obj blk, Value.obj (erase blk sub), hb, hgetw, ?_, ?_⟩
    · show Except.ok (hasKey (erase blk sub) sub) = Except.ok false
      rw [hasKey_erase, if_pos rfl]
    · intro s2 hs2ne
      show Except.ok (hasKey (erase blk sub) s2) = pyContains (Value.obj blk) s2
      rw [hasKey_erase, if_neg hs2ne]
      rfl

theorem delDNSsub_self_obj {k sub : String} {values w : Dict}
    (h : delDNSsub k sub values = .ok w) (hko : k ≠ "Oem")
    {blk : List (String × Value)} (hv : dictGet values k = some (.obj blk)) :
    ∃ blk', dictGet w k = some (.obj blk') ∧ hasKey blk' sub = false ∧
      (∀ s2, s2 ≠ sub → hasKey blk' s2 = hasKey blk s2) := by
  rcases delDNSsub_ok h with ⟨v, hv0, hcase⟩
  rw [hv] at hv0
  cases hv0
  rcases hcase with ⟨hc, rfl⟩ | ⟨hc, v1, h1, h2⟩
  · have hc2 : hasKey blk sub = false := by
      have : pyContains (Value.obj blk) sub = Except.ok (hasKey blk sub) := rfl
      rw [this] at hc
      simp only [Except.ok.injEq] at hc
      exact hc
    exact ⟨blk, hv, hc2, fun s2 _ => rfl⟩
  · rcases delNested1_ok h1 with ⟨blkb, hb, hs, rfl⟩
    rw [hv] at hb
    cases hb
    have hkk : hasKey values k = true := by rw [hasKey_eq_isSome, hv]; rfl
    have hget1 : dictGet (dictSet values k (Value.obj (erase blk sub))) k
        = some (Value.obj (erase blk sub)) := dictGet_dictSet_self _ _ _ hkk
    rcases delOem_ok h2 with ⟨oem, hpe, blk2, ho, hh, hk2, hs2, rfl⟩
    refine ⟨erase blk sub, ?_, ?_, ?_⟩
    · rw [dictGet_dictSet_ne _ _ _ _ hko]
      exact hget1
    · rw [hasKey_erase, if_pos rfl]
    · intro s2 hs2ne
      rw [hasKey_erase, if_neg hs2ne]

theorem stepDNS_self_char {k : String} {st st' : RState}
    (hk : k ∈ protoNames) (h : stepDNS k st = .ok st') {v : Value}
    (hv : dictGet st.values k = some v) :
    ∃ v', dictGet st'.values k = some v' ∧
      pyContains v' "DNSServers" = .ok false ∧
      pyContains v' "UseDNSServers" = .ok false := by
  have hko := proto_ne_oem k hk
  rcases stepDNS_ok h with ⟨hnk, _⟩ | ⟨_, v1, v2, hd1, hd2, rfl⟩
  · exact absurd hk hnk
  rcases delDNSsub_self_char hd1 hko with ⟨w0, w1, hg0, hg1, hc1, hp1⟩
  rcases delDNSsub_self_char hd2 hko with ⟨u0, u1, hu0, hu1, hc2, hp2⟩
  rw [hg1] at hu0
  cases hu0
  refine ⟨u1, hu1, ?_, hc2⟩
  rw [hp2 "DNSServers" (by decide)]
  exact hc1

theorem stepDNS_self_obj {k : String} {st st' : RState}
    (hk : k ∈ protoNames) (h : stepDNS k st = .ok st')
    {blk : List (String × Value)}
    (hv : dictGet st.values k = some (.obj blk)) :
    ∃ blk', dictGet st'.values k = some (.obj blk') ∧
      hasKey blk' "DNSServers" = false ∧
      hasKey blk' "UseDNSServers" = false := by
  have hko := proto_ne_oem k hk
  rcases stepDNS_ok h with ⟨hnk, _⟩ | ⟨_, v1, v2, hd1, hd2, rfl⟩
  · exact absurd hk hnk
  rcases delDNSsub_self_obj hd1 hko hv with ⟨b1, hg1, hno1, hpre1⟩
  rcases delDNSsub_self_obj hd2 hko hg1 with ⟨b2, hg2, hno2, hpre2⟩
  refine ⟨b2, hg2, ?_, hno2⟩
  rw [hpre2 "DNSServers" (by decide)]
  exact hno1

theorem stepDNS_mirror_self {k : String} {st st' : RState}
    (hk : k ∈ protoNames) (h : stepDNS k st = .ok st')
    {blk : List (String × Value)}
    (hv : dictGet st.values k = some (.obj blk)) {sub : String}
    (hsub : sub = "DNSServers" ∨ sub = "UseDNSServers")
    (hs : hasKey blk sub = true) : mirrorHas st'.values k sub = false := by
  have hko := proto_ne_oem k hk
  rcases stepDNS_ok h with ⟨hnk, _⟩ | ⟨_, v1, v2, hd1, hd2, rfl⟩
  · exact absurd hk hnk
  rcases hsub with rfl | rfl
  · -- sub = DNSServers: deleted by the first pass, monotone under the second
    have hm1 : mirrorHas v1 k "DNSServers" = false := by
      rcases delDNSsub_ok hd1 with ⟨v, hv0, hcase⟩
      rw [hv] at hv0
      cases hv0
      rcases hcase with ⟨hc, rfl⟩ | ⟨hc, w1, h1, h2⟩
      · have : pyContains (Value.obj blk) "DNSServers"
            = Except.ok (hasKey blk "DNSServers") := rfl
        rw [this, hs] at hc
        simp at hc
      · exact delOem_mirror_self_erased h2
    cases hfin : mirrorHas v2 k "DNSServers" with
    | false => rfl
    | true =>
      rw [delDNSsub_mirror_mono hd2 hko hfin] at hm1
      cases hm1
  · -- sub = UseDNSServers: still present after the first pass, deleted by
    -- the second
    rcases delDNSsub_self_obj hd1 hko hv with ⟨b1, hg1, hno1, hpre1⟩
    have hb1 : hasKey b1 "UseDNSServers" = true := by
      rw [hpre1 "UseDNSServers" (by decide)]
      exact hs
    rcases delDNSsub_ok hd2 with ⟨v, hv0, hcase⟩
    rw [hg1] at hv0
    cases hv0
    rcases hcase with ⟨hc, rfl⟩ | ⟨hc, w1, h1, h2⟩
    · have : pyContains (Value.obj b1) "UseDNSServers"
          = Except.ok (hasKey b1 "UseDNSServers") := rfl
      rw [this, hb1] at hc
      simp at hc
    · exact delOem_mirror_self_erased h2

theorem redactStep_proto_reduce {tstr : String} {path : Value} {k : String}
    {st st' : RState} (hk : k ∈ protoNames)
    (h : redactStep tstr path k st = .ok st')
    (hpres : hasKey st.values k = true) :
    ∃ st3 : RState, st3.values = st.values ∧ stepDNS k st3 = .ok st' := by
  rcases redactStep_decompose h with ⟨st1, st2, st3, h1, h2, h3, h4⟩
  -- if any earlier branch had erased `k`, the DNS branch's lookup would
  -- have raised KeyError
  have hdget : ∃ v, dictGet st3.values k = some v := by
    rcases stepDNS_ok h4 with ⟨hnk, _⟩ | ⟨_, v1, v2, hd1, hd2, _⟩
    · exact absurd hk hnk
    · rcases delDNSsub_ok hd1 with ⟨v, hv, _⟩
      exact ⟨v, hv⟩
  have h1v : st1.values = st.values := by
    rcases stepType_ok h1 with ⟨_, rfl⟩ | ⟨hkt, w, hw, rfl⟩
    · rfl
    · exfalso
      rcases hdget with ⟨v, hv⟩
      have h2k : hasKey st2.values k = false := by
        rcases stepDrop_ok h2 with ⟨_, rfl⟩ | ⟨_, hhk, _⟩
        · simp [hasKey_erase]
        · simp [hasKey_erase] at hhk
      have h3k : hasKey st3.values k = false := by
        rcases stepStatic_ok h3 with ⟨_, rfl⟩ | ⟨_, w2, hw2, _⟩
        · exact h2k
        · rw [hasKey_eq_isSome, hw2] at h2k
          cases h2k
      rw [hasKey_eq_isSome, hv] at h3k
      cases h3k
  have h2v : st2.values = st1.values := by
    rcases stepDrop_ok h2 with ⟨_, rfl⟩ | ⟨_, hhk, rfl⟩
    · rfl
    · exfalso
      rcases hdget with ⟨v, hv⟩
      have h3k : hasKey st3.values k = false := by
        rcases stepStatic_ok h3 with ⟨_, rfl⟩ | ⟨_, w2, hw2, _⟩
        · simp [hasKey_erase]
        · rw [dictGet_erase, if_pos rfl] at hw2
          cases hw2
      rw [hasKey_eq_isSome, hv] at h3k
      cases h3k
  have h3v : st3.values = st2.values := by
    rcases stepStatic_ok h3 with ⟨_, rfl⟩ | ⟨_, w2, hw2, hcase⟩
    · rfl
    · rcases hcase with ⟨ht, rfl⟩ | ⟨ht, rfl⟩
      · exfalso
        rcases hdget with ⟨v, hv⟩
        rw [show (RState.mk (erase st2.values k) st2.tsel st2.psel).values
            = erase st2.values k from rfl, dictGet_erase, if_pos rfl] at hv
        cases hv
      · rfl
  exact ⟨st3, by rw [h3v, h2v, h1v], h4⟩

theorem redactStep_proto_self {tstr : String} {path : Value} {k : String}
    {st st' : RState} (hk : k ∈ protoNames)
    (h : redactStep tstr path k st = .ok st')
    (hpres : hasKey st.values k = true) :
    ∃ v', dictGet st'.values k = some v' ∧
      pyContains v' "DNSServers" = .ok false ∧
      pyContains v' "UseDNSServers" = .ok false := by
  rcases redactStep_proto_reduce hk h hpres with ⟨st3, h3v, h4⟩
  rcases dictGet_isSome_of_hasKey hpres with ⟨v, hv⟩
  exact stepDNS_self_char hk h4 (by rw [h3v]; exact hv)

theorem redactStep_proto_mirror_self {tstr : String} {path : Value}
    {k : String} {st st' : RState} (hk : k ∈ protoNames)
    (h : redactStep tstr path k st = .ok st')
    {blk : List (String × Value)}
    (hv : dictGet st.values k = some (.obj blk)) {sub : String}
    (hsub : sub = "DNSServers" ∨ sub = "UseDNSServers")
    (hs : hasKey blk sub = true) :
    mirrorHas st'.values k sub = false ∧
    ∃ blk', dictGet st'.values k = some (.obj blk') ∧
      hasKey blk' sub = false := by
  have hpres : hasKey st.values k = true := by
    rw [hasKey_eq_isSome, hv]; rfl
  rcases redactStep_proto_reduce hk h hpres with ⟨st3, h3v, h4⟩
  have hv3 : dictGet st3.values k = some (.obj blk) := by rw [h3v]; exact hv
  refine ⟨stepDNS_mirror_self hk h4 hv3 hsub hs, ?_⟩
  rcases stepDNS_self_obj hk h4 hv3 with ⟨blk', hg, hd, hu⟩
  rcases hsub with rfl | rfl
  · exact ⟨blk', hg, hd⟩
  · exact ⟨blk', hg, hu⟩

/-! ## Inert-key lemmas (for idempotence) -/

theorem stepDNS_inert_mem {k : String} {st : RState} {v : Value}
    (hk : k ∈ protoNames) (hv : dictGet st.values k = some v)
    (h1 : pyContains v "DNSServers" = .ok false)
    (h2 : pyContains v "UseDNSServers" = .ok false) :
    stepDNS k st = .ok st := by
  unfold stepDNS
  rw [if_pos hk, delDNSsub_of_absent hv h1]
  simp only [exBind_ok]
  rw [delDNSsub_of_absent hv h2]
  simp only [exBind_ok]

theorem redactStep_inert {tstr : String} {path : Value} {k : String}
    {st : RState} (h1 : k ≠ tstr) (h2 : k ∉ dropNames)
    (h3 : k ∉ staticNames ∨
      ∃ v, dictGet st.values k = some v ∧ truthy v = false)
    (h4 : k ∉ protoNames ∨
      ∃ v, dictGet st.values k = some v ∧
        pyContains v "DNSServers" = .ok false ∧
        pyContains v "UseDNSServers" = .ok false) :
    redactStep tstr path k st = .ok st := by
  unfold redactStep
  rw [stepType_of_ne st h1]
  simp only [exBind_ok]
  rw [stepDrop_of_not_mem st h2]
  simp only [exBind_ok]
  have hs : stepStatic k st = .ok st := by
    by_cases hmem : k ∈ staticNames
    · rcases h3 with h3 | ⟨v, hv, ht⟩
      · exact absurd hmem h3
      · exact stepStatic_of_falsy hmem hv ht
    · exact stepStatic_of_not_mem st hmem
  rw [hs]
  simp only [exBind_ok]
  by_cases hmem : k ∈ protoNames
  · rcases h4 with h4 | ⟨v, hv, hc1, hc2⟩
    · exact absurd hmem h4
    · exact stepDNS_inert_mem hmem hv hc1 hc2
  · exact stepDNS_of_not_mem st hmem

/-! ## Key-loop lemmas -/

theorem processKeys_append (tstr : String) (path : Value) (l1 l2 : List String)
    (st : RState) :
    processKeys tstr path (l1 ++ l2) st
      = exBind (processKeys tstr path l1 st) (processKeys tstr path l2) := by
  induction l1 generalizing st with
  | nil => simp [processKeys]
  | cons k ks ih =>
    simp only [List.cons_append, processKeys]
    cases redactStep tstr path k st with
    | error e => simp
    | ok st1 => simp [ih]

theorem processKeys_keys_sublist {tstr : String} {path : Value}
    {ks : List String} {st st' : RState}
    (h : processKeys tstr path ks st = .ok st') :
    (st'.values.map Prod.fst).Sublist (st.values.map Prod.fst) := by
  induction ks generalizing st with
  | nil =>
    simp only [processKeys, Except.ok.injEq] at h
    rw [h]
  | cons k ks ih =>
    simp only [processKeys] at h
    cases hr : redactStep tstr path k st with
    | error e => rw [hr] at h; cases h
    | ok st1 =>
      rw [hr] at h
      exact (ih h).trans (redactStep_keys_sublist hr)

theorem processKeys_hasKey_not_mem {tstr : String} {path : Value}
    {ks : List String} {st st' : RState} {l : String}
    (h : processKeys tstr path ks st = .ok st') (hl : l ∉ ks) :
    hasKey st'.values l = hasKey st.values l := by
  induction ks generalizing st with
  | nil =>
    simp only [processKeys, Except.ok.injEq] at h
    rw [h]
  | cons k ks ih =>
    simp only [processKeys] at h
    cases hr : redactStep tstr path k st with
    | error e => rw [hr] at h; cases h
    | ok st1 =>
      rw [hr] at h
      have hlk : l ≠ k := fun hh => hl (hh ▸ List.mem_cons_self k ks)
      rw [ih h (fun hh => hl (List.mem_cons_of_mem k hh)),
        redactStep_hasKey_other hr hlk]

theorem processKeys_get_not_mem {tstr : String} {path : Value}
    {ks : List String} {st st' : RState} {l : String}
    (h : processKeys tstr path ks st = .ok st') (hl : l ∉ ks)
    (hlo : l ≠ "Oem") : dictGet st'.values l = dictGet st.values l := by
  induction ks generalizing st with
  | nil =>
    simp only [processKeys, Except.ok.injEq] at h
    rw [h]
  | cons k ks ih =>
    simp only [processKeys] at h
    cases hr : redactStep tstr path k st with
    | error e => rw [hr] at h; cases h
    | ok st1 =>
      rw [hr] at h
      have hlk : l ≠ k := fun hh => hl (hh ▸ List.mem_cons_self k ks)
      rw [ih h (fun hh => hl (List.mem_cons_of_mem k hh)),
        redactStep_get_other hr hlk hlo]

theorem processKeys_absent_stable {tstr : String} {path : Value}
    {ks : List String} {st st' : RState} {l : String}
    (h : processKeys tstr path ks st = .ok st')
    (ha : hasKey st.values l = false) : hasKey st'.values l = false := by
  cases hb : hasKey st'.values l with
  | false => rfl
  | true =>
    have hm := (hasKey_iff_mem _ l).mp hb
    have hm2 := (processKeys_keys_sublist h).mem hm
    rw [(hasKey_iff_mem _ l).mpr hm2] at ha
    cases ha

theorem processKeys_mirror_mono {tstr : String} {path : Value}
    {ks : List String} {st st' : RState}
    (h : processKeys tstr path ks st = .ok st') {q sub : String}
    (hm : mirrorHas st'.values q sub = true) :
    mirrorHas st.values q sub = true := by
  induction ks generalizing st with
  | nil =>
    simp only [processKeys, Except.ok.injEq] at h
    rw [h]
    exact hm
  | cons k ks ih =>
    simp only [processKeys] at h
    cases hr : redactStep tstr path k st with
    | error e => rw [hr] at h; cases h
    | ok st1 =>
      rw [hr] at h
      exact redactStep_mirror_mono hr (ih h)

theorem processKeys_inert {tstr : String} {path : Value} {ks : List String}
    {st : RState} (hin : ∀ k ∈ ks, redactStep tstr path k st = .ok st) :
    processKeys tstr path ks st = .ok st := by
  induction ks with
  | nil => rfl
  | cons k ks ih =>
    simp only [processKeys]
    rw [hin k (List.mem_cons_self k ks)]
    exact ih fun k2 hk2 => hin k2 (List.mem_cons_of_mem k hk2)

theorem nodup_split {l1 l2 : List String} {a : String}
    (h : (l1 ++ a :: l2).Nodup) : a ∉ l1 ∧ a ∉ l2 := by
  rw [List.nodup_append] at h
  exact ⟨fun hm => h.2.2 hm (List.mem_cons_self a l2),
    fun hm => (List.nodup_cons.mp h.2.1).1 hm⟩

theorem redactRecord_split {tstr : String} {path : Value} {values : Dict}
    {st' : RState} {k : String}
    (h : redactRecord tstr path values = .ok st')
    (hm : k ∈ values.map Prod.fst) :
    ∃ l1 l2 st1 stm, values.map Prod.fst = l1 ++ k :: l2 ∧
      processKeys tstr path l1 ⟨values, none, none⟩ = .ok st1 ∧
      redactStep tstr path k st1 = .ok stm ∧
      processKeys tstr path l2 stm = .ok st' := by
  obtain ⟨l1, l2, heq⟩ := List.append_of_mem hm
  unfold redactRecord at h
  rw [heq, processKeys_append] at h
  cases hp : processKeys tstr path l1 ⟨values, none, none⟩ with
  | error e => rw [hp] at h; cases h
  | ok st1 =>
    rw [hp] at h
    simp only [exBind_ok, processKeys] at h
    cases hr : redactStep tstr path k st1 with
    | error e => rw [hr] at h; cases h
    | ok stm =>
      rw [hr] at h
      exact ⟨l1, l2, st1, stm, heq, hp, hr, h⟩

/-! ## Record-level redaction lemmas -/

theorem redactRecord_keys_sublist {tstr : String} {path : Value}
    {values : Dict} {st' : RState}
    (h : redactRecord tstr path values = .ok st') :
    (st'.values.map Prod.fst).Sublist (values.map Prod.fst) :=
  processKeys_keys_sublist h

theorem redactRecord_tstr_absent {tstr : String} {path : Value}
    {values : Dict} {st' : RState}
    (h : redactRecord tstr path values = .ok st') :
    hasKey st'.values tstr = false := by
  by_cases hmem : tstr ∈ values.map Prod.fst
  · rcases redactRecord_split h hmem with ⟨l1, l2, st1, stm, heq, hp, hr, hrest⟩
    exact processKeys_absent_stable hrest (redactStep_tstr_self hr)
  · unfold redactRecord at h
    refine processKeys_absent_stable h ?_
    cases hb : hasKey values tstr with
    | false => rfl
    | true => exact absurd ((hasKey_iff_mem _ _).mp hb) hmem

theorem redactRecord_drop_absent {tstr : String} {path : Value}
    {values : Dict} {st' : RState} {name : String}
    (h : redactRecord tstr path values = .ok st') (hk : name ∈ dropNames) :
    hasKey st'.values name = false := by
  by_cases hmem : name ∈ values.map Prod.fst
  · rcases redactRecord_split h hmem with ⟨l1, l2, st1, stm, heq, hp, hr, hrest⟩
    exact processKeys_absent_stable hrest (redactStep_drop_self hk hr)
  · unfold redactRecord at h
    refine processKeys_absent_stable h ?_
    cases hb : hasKey values name with
    | false => rfl
    | true => exact absurd ((hasKey_iff_mem _ _).mp hb) hmem

theorem redactRecord_static_char {tstr : String} {path : Value}
    {values : Dict} {st' : RState} {name : String}
    (hnd : (values.map Prod.fst).Nodup)
    (h : redactRecord tstr path values = .ok st') (hk : name ∈ staticNames) :
    dictGet st'.values name =
      (match dictGet values name with
       | some v => if truthy v = true then none else some v
       | none => none) := by
  have hno : name ≠ "Oem" := static_ne_oem name hk
  by_cases hmem : name ∈ values.map Prod.fst
  · rcases redactRecord_split h hmem with ⟨l1, l2, st1, stm, heq, hp, hr, hrest⟩
    rw [heq] at hnd
    rcases nodup_split hnd with ⟨hs1, hs2⟩
    have hg1 : dictGet st1.values name = dictGet values name :=
      processKeys_get_not_mem hp hs1 hno
    rcases redactStep_static_self hk hr with ⟨v, hv1, hv2⟩
    rw [hg1] at hv1
    rw [hv1]
    dsimp only
    cases ht : truthy v with
    | true =>
      rw [ht, if_pos rfl] at hv2
      rw [if_pos rfl]
      have habs : hasKey stm.values name = false := by
        rw [hasKey_eq_isSome, hv2]
        rfl
      rw [dictGet_eq_none_iff]
      exact processKeys_absent_stable hrest habs
    | false =>
      rw [ht] at hv2
      simp only [Bool.false_eq_true, if_false] at hv2
      simp only [Bool.false_eq_true, if_false]
      rw [processKeys_get_not_mem hrest hs2 hno, hv2]
  · have hnone : dictGet values name = none := by
      rw [dictGet_eq_none_iff]
      cases hb : hasKey values name with
      | false => rfl
      | true => exact absurd ((hasKey_iff_mem _ _).mp hb) hmem
    rw [hnone]
    unfold redactRecord at h
    have habs : hasKey values name = false := by
      rw [← dictGet_eq_none_iff]
      exact hnone
    dsimp only
    rw [dictGet_eq_none_iff]
    exact processKeys_absent_stable h habs

theorem redactRecord_proto_clean {tstr : String} {path : Value}
    {values : Dict} {st' : RState} {k : String}
    (hnd : (values.map Prod.fst).Nodup)
    (h : redactRecord tstr path values = .ok st') (hk : k ∈ protoNames)
    (hpres : hasKey st'.values k = true) :
    ∃ v', dictGet st'.values k = some v' ∧
      pyContains v' "DNSServers" = .ok false ∧
      pyContains v' "UseDNSServers" = .ok false := by
  have hno : k ≠ "Oem" := proto_ne_oem k hk
  have hmem : k ∈ values.map Prod.fst :=
    (redactRecord_keys_sublist h).mem ((hasKey_iff_mem _ _).mp hpres)
  rcases redactRecord_split h hmem with ⟨l1, l2, st1, stm, heq, hp, hr, hrest⟩
  rw [heq] at hnd
  rcases nodup_split hnd with ⟨hs1, hs2⟩
  have hpres1 : hasKey st1.values k = true := by
    rw [processKeys_hasKey_not_mem hp hs1, hasKey_iff_mem]
    exact hmem
  rcases redactStep_proto_self hk hr hpres1 with ⟨v', hv', hc1, hc2⟩
  refine ⟨v', ?_, hc1, hc2⟩
  rw [processKeys_get_not_mem hrest hs2 hno]
  exact hv'

theorem redactRecord_proto_mirror {tstr : String} {path : Value}
    {values : Dict} {st' : RState} {k : String}
    (hnd : (values.map Prod.fst).Nodup)
    (h : redactRecord tstr path values = .ok st') (hk : k ∈ protoNames)
    {blk : List (String × Value)}
    (hv : dictGet values k = some (.obj blk)) {sub : String}
    (hsub : sub = "DNSServers" ∨ sub = "UseDNSServers")
    (hs : hasKey blk sub = true) :
    mirrorHas st'.values k sub = false ∧
    ∃ blk', dictGet st'.values k = some (.obj blk') ∧
      hasKey blk' sub = false := by
  have hno : k ≠ "Oem" := proto_ne_oem k hk
  have hmem : k ∈ values.map Prod.fst := by
    rw [← hasKey_iff_mem, hasKey_eq_isSome, hv]
    rfl
  rcases redactRecord_split h hmem with ⟨l1, l2, st1, stm, heq, hp, hr, hrest⟩
  rw [heq] at hnd
  rcases nodup_split hnd with ⟨hs1, hs2⟩
  have hv1 : dictGet st1.values k = some (.obj blk) := by
    rw [processKeys_get_not_mem hp hs1 hno]
    exact hv
  rcases redactStep_proto_mirror_self hk hr hv1 hsub hs with ⟨hm, blk', hg, hb⟩
  constructor
  · cases hfin : mirrorHas st'.values k sub with
    | false => rfl
    | true =>
      rw [processKeys_mirror_mono hrest hfin] at hm
      cases hm
  · refine ⟨blk', ?_, hb⟩
    rw [processKeys_get_not_mem hrest hs2 hno]
    exact hg

/-! ## Extraction fold invariant -/

theorem mapExc_mem {f : α → Except PyErr β} {l : List α} {bs : List β}
    (h : mapExc f l = .ok bs) : ∀ b ∈ bs, ∃ a ∈ l, f a = .ok b := by
  induction l generalizing bs with
  | nil =>
    simp only [mapExc, Except.ok.injEq] at h
    rw [← h]
    intro b hb
    cases hb
  | cons a l ih =>
    simp only [mapExc] at h
    cases hf : f a with
    | error e => rw [hf] at h; cases h
    | ok b0 =>
      rw [hf] at h
      simp only [exBind_ok] at h
      cases hrest : mapExc f l with
      | error e => rw [hrest] at h; cases h
      | ok bs0 =>
        rw [hrest] at h
        simp only [exBind_ok, Except.ok.injEq] at h
        rw [← h]
        intro b hb
        rcases List.mem_cons.mp hb with rfl | hb
        · exact ⟨a, List.mem_cons_self a l, hf⟩
        · rcases ih hrest b hb with ⟨a2, ha2, hfa2⟩
          exact ⟨a2, List.mem_cons_of_mem a ha2, hfa2⟩

theorem lookupTop_snd {href : String} {val : Dict} {pr : Value × Dict}
    (h : lookupTop href val = .ok pr) : pr.2 = val := by
  unfold lookupTop at h
  cases hv : dictGet val href with
  | none => rw [hv] at h; cases h
  | some v =>
    rw [hv] at h
    simp only [Except.ok.injEq] at h
    rw [← h]

theorem lookupNested_snd {href : String} {val : Dict} {pr : Value × Dict}
    (h : lookupNested href val = .ok pr) : pr.2 = val := by
  unfold lookupNested at h
  split at h
  · cases h
  · split at h
    · cases h
    · split at h
      · cases h
      · simp only [Except.ok.injEq] at h
        rw [← h]
    · cases h
  · cases h

theorem mkContents_mem {href : String} {content : List Dict}
    {contents : List (Value × Dict)}
    (h : mkContents href content = .ok contents) :
    ∀ pr ∈ contents, pr.2 ∈ content := by
  unfold mkContents at h
  intro pr hpr
  cases h1 : mapExc (lookupTop href) content with
  | ok l =>
    rw [h1] at h
    simp only [Except.ok.injEq] at h
    rw [h] at h1
    rcases mapExc_mem h1 pr hpr with ⟨a, ha, hfa⟩
    rw [lookupTop_snd hfa]
    exact ha
  | error e =>
    rw [h1] at h
    cases e with
    | keyError =>
      cases h2 : mapExc (lookupNested href) content with
      | ok l =>
        rw [h2] at h
        simp only [Except.ok.injEq] at h
        rw [h] at h2
        rcases mapExc_mem h2 pr hpr with ⟨a, ha, hfa⟩
        rw [lookupNested_snd hfa]
        exact ha
      | error e2 =>
        rw [h2] at h
        cases e2 <;> cases h
    | typeError => cases h
    | unboundLocal => cases h
    | corruption => cases h
    | invalidFormat => cases h
    | nothingSelected => cases h

theorem processRecord_inv {tstr : String} {st st' : ExtractState}
    {rec : Value × Dict} (P : Entry → Prop)
    (h : processRecord tstr st rec = .ok st')
    (hstep : ∀ rst : RState, redactRecord tstr rec.1 rec.2 = .ok rst →
      ∀ tv pv, rst.tsel = some tv → rst.psel = some pv →
      P ⟨tv, pv, rst.values⟩)
    (h1 : ∀ e ∈ st.templist, P e)
    (h2 : ∀ e, st.tempcontents = some e → P e) :
    (∀ e ∈ st'.templist, P e) ∧
    (∀ e, st'.tempcontents = some e → P e) := by
  unfold processRecord at h
  cases hr : processKeys tstr rec.1 (rec.2.map Prod.fst)
      ⟨rec.2, none, none⟩ with
  | error e => rw [hr] at h; cases h
  | ok rst =>
    rw [hr] at h
    simp only [exBind_ok] at h
    have hred : redactRecord tstr rec.1 rec.2 = .ok rst := hr
    by_cases hemp : rst.values.isEmpty
    · rw [if_pos hemp] at h
      simp only [exBind_ok] at h
      cases htc : st.tempcontents with
      | none => rw [htc] at h; cases h
      | some e0 =>
        rw [htc] at h
        simp only [Except.ok.injEq] at h
        rw [← h]
        have hP0 := h2 e0 htc
        refine ⟨?_, ?_⟩
        · intro e he
          rcases List.mem_append.mp he with he | he
          · exact h1 e he
          · rcases List.mem_singleton.mp he with rfl
            exact hP0
        · intro e he
          simp only [Option.some.injEq] at he
          rw [← he]
          exact hP0
    · rw [if_neg hemp] at h
      cases hts : rst.tsel with
      | none => rw [hts] at h; cases h
      | some tv =>
        cases hps : rst.psel with
        | none => rw [hts, hps] at h; cases h
        | some pv =>
          rw [hts, hps] at h
          dsimp only at h
          by_cases htr : truthy tv && truthy pv
          · rw [if_pos htr] at h
            simp only [exBind_ok] at h
            simp only [Except.ok.injEq] at h
            rw [← h]
            have hPe : P ⟨tv, pv, rst.values⟩ := hstep rst hred tv pv hts hps
            refine ⟨?_, ?_⟩
            · intro e he
              rcases List.mem_append.mp he with he | he
              · exact h1 e he
              · rcases List.mem_singleton.mp he with rfl
                exact hPe
            · intro e he
              simp only [Option.some.injEq] at he
              rw [← he]
              exact hPe
          · rw [if_neg htr] at h
            cases h

theorem foldExc_processRecord_inv {tstr : String}
    {contents : List (Value × Dict)} {st st' : ExtractState}
    (P : Entry → Prop)
    (h : foldExc (processRecord tstr) st contents = .ok st')
    (hstep : ∀ pr ∈ contents, ∀ rst : RState,
      redactRecord tstr pr.1 pr.2 = .ok rst →
      ∀ tv pv, rst.tsel = some tv → rst.psel = some pv →
      P ⟨tv, pv, rst.values⟩)
    (h1 : ∀ e ∈ st.templist, P e)
    (h2 : ∀ e, st.tempcontents = some e → P e) :
    ∀ e ∈ st'.templist, P e := by
  induction contents generalizing st with
  | nil =>
    simp only [foldExc, Except.ok.injEq] at h
    rw [← h]
    exact h1
  | cons pr rest ih =>
    simp only [foldExc] at h
    cases hp : processRecord tstr st pr with
    | error e => rw [hp] at h; cases h
    | ok st1 =>
      rw [hp] at h
      have hinv := processRecord_inv P hp
        (hstep pr (List.mem_cons_self pr rest))
        h1 h2
      exact ih h (fun pr2 hpr2 => hstep pr2 (List.mem_cons_of_mem pr hpr2))
        hinv.1 hinv.2

/-! ## Theorems -/

/-- Claim C1 (code bug): a record whose identity resolves but whose
property mapping is empty after identity removal and redaction does *not*
contribute no output.  Because `templist.append(tempcontents)` (line 218)
sits outside the `if values:` block, extraction raises
`UnboundLocalError` when the first record comes out empty (here the
identity key is `MACAddress`, itself an always-dropped field, so the
record empties), and when a later record comes out empty the *previous*
record's entry is appended a second time. -/
theorem c1_empty_record_crashes_or_duplicates :
    saveworkerfunction "MACAddress" "@odata.type"
      [[("MACAddress", .str "aa:bb"), ("@odata.type", .str "T.")]]
      = .error .unboundLocal
    ∧ saveworkerfunction "MACAddress" "@odata.type"
      [[("MACAddress", .str "m1"), ("@odata.type", .str "T."), ("X", .num 1)],
       [("MACAddress", .str "m2"), ("@odata.type", .str "T2.")]]
      = .ok [⟨.str "T.", .str "m1", [("X", .num 1)]⟩,
             ⟨.str "T.", .str "m1", [("X", .num 1)]⟩] :=
  ⟨rfl, rfl⟩

/-- Claim C2 (counterexample): the path identity field is *not* removed
from the property mapping — a record held under the `@odata.id`
convention is emitted with `@odata.id` still inside its properties, so
the path appears both as the Entry's metadata and as data. -/
theorem c2_path_field_retained_counterexample :
    saveworkerfunction "@odata.id" "@odata.type"
      [[("@odata.id", .str "/p"), ("@odata.type", .str "T."),
        ("AttributeX", .num 1)]]
      = .ok [⟨.str "T.", .str "/p",
              [("@odata.id", .str "/p"), ("AttributeX", .num 1)]⟩]
    ∧ hasKey [("@odata.id", .str "/p"), ("AttributeX", .num 1)] "@odata.id"
      = true :=
  ⟨rfl, rfl⟩

/-- Claim C3 (counterexample): the identity fallback is applied to the
whole batch, not per record — a batch whose first record carries its
identity top-level and whose second carries it under `links/self` raises
`iLORisCorruptionError` even though each record's identity is locatable
under one of the two conventions. -/
theorem c3_mixed_conventions_corruption :
    saveworkerfunction "@odata.id" "@odata.type"
      [[("@odata.id", .str "/a"), ("A", .num 1)],
       [("links", .obj [("self", .obj [("@odata.id", .str "/b")])]),
        ("B", .num 2)]]
      = .error .corruption
    ∧ lookupTop "@odata.id" [("@odata.id", .str "/a"), ("A", .num 1)]
      = .ok (.str "/a", [("@odata.id", .str "/a"), ("A", .num 1)])
    ∧ lookupNested "@odata.id"
        [("links", .obj [("self", .obj [("@odata.id", .str "/b")])]),
         ("B", .num 2)]
      = .ok (.str "/b",
             [("links", .obj [("self", .obj [("@odata.id", .str "/b")])]),
              ("B", .num 2)]) :=
  ⟨rfl, rfl, rfl⟩

/-- The broken-mirror condition: the chain
`values["Oem"]["Hpe"][k]` has a missing dictionary key somewhere, or ends
in a dictionary lacking `sub` — exactly the situations in which the
mirror deletion at lines 203/206 raises `KeyError`. -/
def mirrorKeyMissing (values : Dict) (k sub : String) : Bool :=
  match dictGet values "Oem" with
  | none => true
  | some (.obj oem) =>
    match dictGet oem "Hpe" with
    | none => true
    | some (.obj hpe) =>
      match dictGet hpe k with
      | none => true
      | some (.obj blk) => !(hasKey blk sub)
      | some _ => false
    | some _ => false
  | some _ => false

theorem proto_not_drop : ∀ n ∈ protoNames, n ∉ dropNames := by decide

theorem proto_not_static : ∀ n ∈ protoNames, n ∉ staticNames := by decide

theorem mirrorKeyMissing_dictSet_ne (d : Dict) {e : String} (v : Value)
    (k sub : String) (he : e ≠ "Oem") :
    mirrorKeyMissing (dictSet d e v) k sub = mirrorKeyMissing d k sub := by
  unfold mirrorKeyMissing
  rw [dictGet_dictSet_ne _ _ _ _ (fun hh => he hh.symm)]

theorem delOem_keyError_of_missing {values : Dict} {k sub : String}
    (hm : mirrorKeyMissing values k sub = true) :
    delOem values k sub = .error .keyError := by
  unfold mirrorKeyMissing at hm
  unfold delOem
  cases ho : dictGet values "Oem" with
  | none => rfl
  | some vo =>
    rw [ho] at hm
    cases vo with
    | obj oem =>
      dsimp only at hm ⊢
      cases hh : dictGet oem "Hpe" with
      | none => rfl
      | some vh =>
        rw [hh] at hm
        cases vh with
        | obj hpe =>
          dsimp only at hm ⊢
          cases hk : dictGet hpe k with
          | none => rfl
          | some vb =>
            rw [hk] at hm
            cases vb with
            | obj blk =>
              dsimp only at hm ⊢
              cases hsb : hasKey blk sub with
              | true =>
                rw [hsb] at hm
                cases hm
              | false => rfl
            | str s2 => cases hm
            | num n => cases hm
            | bool b => cases hm
            | null => cases hm
            | list l => cases hm
        | str s2 => cases hm
        | num n => cases hm
        | bool b => cases hm
        | null => cases hm
        | list l => cases hm
    | str s2 => cases hm
    | num n => cases hm
    | bool b => cases hm
    | null => cases hm
    | list l => cases hm

theorem delOem_get_ne {values w : Dict} {k2 sub2 : String}
    (h : delOem values k2 sub2 = .ok w) {l : String} (hl : l ≠ "Oem") :
    dictGet w l = dictGet values l := by
  rcases delOem_ok h with ⟨oem, hpe, blk, ho, hh, hk2, hs2, rfl⟩
  exact dictGet_dictSet_ne _ _ _ _ hl

theorem delOem_cases_of_missing {values : Dict} {k sub sub2 : String}
    (hm : mirrorKeyMissing values k sub = true) (hne : sub ≠ sub2) :
    delOem values k sub2 = .error .keyError ∨
    ∃ w, delOem values k sub2 = .ok w ∧ mirrorKeyMissing w k sub = true := by
  unfold mirrorKeyMissing at hm
  cases ho : dictGet values "Oem" with
  | none =>
    left
    unfold delOem
    rw [ho]
  | some vo =>
    rw [ho] at hm
    cases vo with
    | obj oem =>
      dsimp only at hm
      cases hh : dictGet oem "Hpe" with
      | none =>
        left
        unfold delOem
        rw [ho]
        dsimp only
        rw [hh]
      | some vh =>
        rw [hh] at hm
        cases vh with
        | obj hpe =>
          dsimp only at hm
          cases hk : dictGet hpe k with
          | none =>
            left
            unfold delOem
            rw [ho]
            dsimp only
            rw [hh]
            dsimp only
            rw [hk]
          | some vb =>
            rw [hk] at hm
            cases vb with
            | obj mblk =>
              dsimp only at hm
              cases hsb2 : hasKey mblk sub2 with
              | false =>
                left
                unfold delOem
                rw [ho]
                dsimp only
                rw [hh]
                dsimp only
                rw [hk]
                dsimp only
                rw [hsb2]
                rfl
              | true =>
                right
                have hdel : delOem values k sub2 = .ok (dictSet values "Oem"
                    (.obj (dictSet oem "Hpe" (.obj (dictSet hpe k
                      (.obj (erase mblk sub2))))))) := by
                  unfold delOem
                  rw [ho]
                  dsimp only
                  rw [hh]
                  dsimp only
                  rw [hk]
                  dsimp only
                  rw [hsb2]
                  rfl
                refine ⟨_, hdel, ?_⟩
                have h1 : dictGet (dictSet values "Oem" (Value.obj (dictSet oem
                    "Hpe" (Value.obj (dictSet hpe k (Value.obj
                    (erase mblk sub2))))))) "Oem"
                    = some (Value.obj (dictSet oem "Hpe" (Value.obj (dictSet
                        hpe k (Value.obj (erase mblk sub2)))))) :=
                  dictGet_dictSet_self _ _ _
                    (by rw [hasKey_eq_isSome, ho]; rfl)
                have h2 : dictGet (dictSet oem "Hpe" (Value.obj (dictSet hpe k
                    (Value.obj (erase mblk sub2))))) "Hpe"
                    = some (Value.obj (dictSet hpe k (Value.obj
                        (erase mblk sub2)))) :=
                  dictGet_dictSet_self _ _ _
                    (by rw [hasKey_eq_isSome, hh]; rfl)
                have h3 : dictGet (dictSet hpe k (Value.obj
                    (erase mblk sub2))) k = some (Value.obj (erase mblk sub2)) :=
                  dictGet_dictSet_self _ _ _
                    (by rw [hasKey_eq_isSome, hk]; rfl)
                unfold mirrorKeyMissing
                simp only [h1, h2, h3]
                rw [hasKey_erase, if_neg hne]
                exact hm
            | str s2 => cases hm
            | num n => cases hm
            | bool b => cases hm
            | null => cases hm
            | list l => cases hm
        | str s2 => cases hm
        | num n => cases hm
        | bool b => cases hm
        | null => cases hm
        | list l => cases hm
    | str s2 => cases hm
    | num n => cases hm
    | bool b => cases hm
    | null => cases hm
    | list l => cases hm

theorem mirrorKeyMissing_erase {d : Dict} (e : String) {k sub : String}
    (hm : mirrorKeyMissing d k sub = true) :
    mirrorKeyMissing (erase d e) k sub = true := by
  unfold mirrorKeyMissing at hm ⊢
  rw [dictGet_erase]
  by_cases ho : "Oem" = e
  · rw [if_pos ho]
  · rw [if_neg ho]
    exact hm

theorem delOem_missing_ne {values w : Dict} {k2 sub2 : String}
    (h : delOem values k2 sub2 = .ok w) {k : String} (hk : k ≠ k2)
    (sub : String) :
    mirrorKeyMissing w k sub = mirrorKeyMissing values k sub := by
  rcases delOem_ok h with ⟨oem, hpe, blk, ho, hh, hk2, hs2, rfl⟩
  have h1 : dictGet (dictSet values "Oem" (Value.obj (dictSet oem "Hpe"
      (Value.obj (dictSet hpe k2 (Value.obj (erase blk sub2))))))) "Oem"
      = some (Value.obj (dictSet oem "Hpe"
          (Value.obj (dictSet hpe k2 (Value.obj (erase blk sub2)))))) :=
    dictGet_dictSet_self _ _ _ (by rw [hasKey_eq_isSome, ho]; rfl)
  have h2 : dictGet (dictSet oem "Hpe" (Value.obj (dictSet hpe k2
      (Value.obj (erase blk sub2))))) "Hpe"
      = some (Value.obj (dictSet hpe k2 (Value.obj (erase blk sub2)))) :=
    dictGet_dictSet_self _ _ _ (by rw [hasKey_eq_isSome, hh]; rfl)
  have h3 : dictGet (dictSet hpe k2 (Value.obj (erase blk sub2))) k
      = dictGet hpe k := dictGet_dictSet_ne _ _ _ _ hk
  unfold mirrorKeyMissing
  simp only [h1, h2, h3, ho, hh]

theorem delDNSsub_missing_pres {k2 sub2 : String} {values w : Dict}
    (h : delDNSsub k2 sub2 values = .ok w) (hko : k2 ≠ "Oem")
    {k sub : String} (hk : k ≠ k2)
    (hm : mirrorKeyMissing values k sub = true) :
    mirrorKeyMissing w k sub = true := by
  rcases delDNSsub_ok h with ⟨v, hv, hcase⟩
  rcases hcase with ⟨hc, rfl⟩ | ⟨hc, v1, h1, h2⟩
  · exact hm
  · rcases delNested1_ok h1 with ⟨blk, hb, hs, rfl⟩
    rw [delOem_missing_ne h2 hk sub,
      mirrorKeyMissing_dictSet_ne _ _ _ _ hko]
    exact hm

theorem redactStep_missing_pres {tstr : String} {path : Value} {k2 : String}
    {st st' : RState} (h : redactStep tstr path k2 st = .ok st')
    {k sub : String} (hk : k ≠ k2)
    (hm : mirrorKeyMissing st.values k sub = true) :
    mirrorKeyMissing st'.values k sub = true := by
  rcases redactStep_decompose h with ⟨st1, st2, st3, h1, h2, h3, h4⟩
  have m1 : mirrorKeyMissing st1.values k sub = true := by
    rcases stepType_ok h1 with ⟨_, rfl⟩ | ⟨_, v, hv, rfl⟩
    · exact hm
    · exact mirrorKeyMissing_erase _ hm
  have m2 : mirrorKeyMissing st2.values k sub = true := by
    rcases stepDrop_ok h2 with ⟨_, rfl⟩ | ⟨_, _, rfl⟩
    · exact m1
    · exact mirrorKeyMissing_erase _ m1
  have m3 : mirrorKeyMissing st3.values k sub = true := by
    rcases stepStatic_ok h3 with ⟨_, rfl⟩ | ⟨_, v, hv, hcase⟩
    · exact m2
    · rcases hcase with ⟨_, rfl⟩ | ⟨_, rfl⟩
      · exact mirrorKeyMissing_erase _ m2
      · exact m2
  rcases stepDNS_ok h4 with ⟨_, rfl⟩ | ⟨hpk, v1, v2, hd1, hd2, rfl⟩
  · exact m3
  · have hko := proto_ne_oem k2 hpk
    exact delDNSsub_missing_pres hd2 hko hk
      (delDNSsub_missing_pres hd1 hko hk m3)

theorem processKeys_missing_pres {tstr : String} {path : Value}
    {ks : List String} {st st' : RState}
    (h : processKeys tstr path ks st = .ok st') {k sub : String}
    (hk : k ∉ ks) (hm : mirrorKeyMissing st.values k sub = true) :
    mirrorKeyMissing st'.values k sub = true := by
  induction ks generalizing st with
  | nil =>
    simp only [processKeys, Except.ok.injEq] at h
    rw [← h]
    exact hm
  | cons k2 ks ih =>
    simp only [processKeys] at h
    cases hr : redactStep tstr path k2 st with
    | error e => rw [hr] at h; cases h
    | ok st1 =>
      rw [hr] at h
      have hkk2 : k ≠ k2 := fun hh => hk (hh ▸ List.mem_cons_self k2 ks)
      exact ih h (fun hh => hk (List.mem_cons_of_mem k2 hh))
        (redactStep_missing_pres hr hkk2 hm)

theorem stepDNS_keyError {k : String} {st : RState}
    {blk : List (String × Value)} (hk : k ∈ protoNames)
    (hv : dictGet st.values k = some (.obj blk)) {sub : String}
    (hsub : sub = "DNSServers" ∨ sub = "UseDNSServers")
    (hs : hasKey blk sub = true)
    (hm : mirrorKeyMissing st.values k sub = true) :
    stepDNS k st = .error .keyError := by
  have hko := proto_ne_oem k hk
  have hkk : hasKey st.values k = true := by
    rw [hasKey_eq_isSome, hv]
    rfl
  unfold stepDNS
  rw [if_pos hk]
  rcases hsub with rfl | rfl
  · -- the first deletion block already hits the broken mirror
    have hd : delDNSsub k "DNSServers" st.values = .error .keyError := by
      unfold delDNSsub
      rw [hv]
      dsimp only
      have hc : pyContains (Value.obj blk) "DNSServers"
          = Except.ok (hasKey blk "DNSServers") := rfl
      rw [hc, hs]
      simp only [exBind_ok, if_true]
      have hn : delNested1 st.values k "DNSServers"
          = .ok (dictSet st.values k (Value.obj (erase blk "DNSServers"))) := by
        unfold delNested1
        rw [hv]
        dsimp only
        rw [hs]
        rfl
      rw [hn]
      simp only [exBind_ok]
      apply delOem_keyError_of_missing
      rw [mirrorKeyMissing_dictSet_ne _ _ _ _ hko]
      exact hm
    rw [hd]
    rfl
  · -- sub = UseDNSServers: the DNSServers block may fire first, but the
    -- mirror chain stays broken for UseDNSServers
    cases hdns : hasKey blk "DNSServers" with
    | false =>
      have hd1 : delDNSsub k "DNSServers" st.values = .ok st.values := by
        apply delDNSsub_of_absent hv
        show Except.ok (hasKey blk "DNSServers") = Except.ok false
        rw [hdns]
      rw [hd1]
      simp only [exBind_ok]
      have hd2 : delDNSsub k "UseDNSServers" st.values = .error .keyError := by
        unfold delDNSsub
        rw [hv]
        dsimp only
        have hc : pyContains (Value.obj blk) "UseDNSServers"
            = Except.ok (hasKey blk "UseDNSServers") := rfl
        rw [hc, hs]
        simp only [exBind_ok, if_true]
        have hn : delNested1 st.values k "UseDNSServers"
            = .ok (dictSet st.values k (Value.obj
                (erase blk "UseDNSServers"))) := by
          unfold delNested1
          rw [hv]
          dsimp only
          rw [hs]
          rfl
        rw [hn]
        simp only [exBind_ok]
        apply delOem_keyError_of_missing
        rw [mirrorKeyMissing_dictSet_ne _ _ _ _ hko]
        exact hm
      rw [hd2]
      rfl
    | true =>
      have hm1 : mirrorKeyMissing (dictSet st.values k (Value.obj
          (erase blk "DNSServers"))) k "UseDNSServers" = true := by
        rw [mirrorKeyMissing_dictSet_ne _ _ _ _ hko]
        exact hm
      have hn : delNested1 st.values k "DNSServers"
          = .ok (dictSet st.values k (Value.obj (erase blk "DNSServers"))) := by
        unfold delNested1
        rw [hv]
        dsimp only
        rw [hdns]
        rfl
      rcases @delOem_cases_of_missing
          (dictSet st.values k (Value.obj (erase blk "DNSServers"))) k
          "UseDNSServers" "DNSServers" hm1 (by decide)
        with hko2 | ⟨w, hw, hmw⟩
      · have hd1 : delDNSsub k "DNSServers" st.values = .error .keyError := by
          unfold delDNSsub
          rw [hv]
          dsimp only
          have hc : pyContains (Value.obj blk) "DNSServers"
              = Except.ok (hasKey blk "DNSServers") := rfl
          rw [hc, hdns]
          simp only [exBind_ok, if_true]
          rw [hn]
          simp only [exBind_ok]
          exact hko2
        rw [hd1]
        rfl
      · have hd1 : delDNSsub k "DNSServers" st.values = .ok w := by
          unfold delDNSsub
          rw [hv]
          dsimp only
          have hc : pyContains (Value.obj blk) "DNSServers"
              = Except.ok (hasKey blk "DNSServers") := rfl
          rw [hc, hdns]
          simp only [exBind_ok, if_true]
          rw [hn]
          simp only [exBind_ok]
          exact hw
        rw [hd1]
        simp only [exBind_ok]
        have hgw : dictGet w k = some (Value.obj (erase blk "DNSServers")) := by
          rw [delOem_get_ne hw hko]
          exact dictGet_dictSet_self _ _ _ hkk
        have hsw : hasKey (erase blk "DNSServers") "UseDNSServers" = true := by
          rw [hasKey_erase, if_neg (by decide)]
          exact hs
        have hd2 : delDNSsub k "UseDNSServers" w = .error .keyError := by
          unfold delDNSsub
          rw [hgw]
          dsimp only
          have hc : pyContains (Value.obj (erase blk "DNSServers"))
              "UseDNSServers" = Except.ok (hasKey (erase blk "DNSServers")
                "UseDNSServers") := rfl
          rw [hc, hsw]
          simp only [exBind_ok, if_true]
          have hn2 : delNested1 w k "UseDNSServers"
              = .ok (dictSet w k (Value.obj (erase (erase blk "DNSServers")
                  "UseDNSServers"))) := by
            unfold delNested1
            rw [hgw]
            dsimp only
            rw [hsw]
            rfl
          rw [hn2]
          simp only [exBind_ok]
          apply delOem_keyError_of_missing
          rw [mirrorKeyMissing_dictSet_ne _ _ _ _ hko]
          exact hmw
        rw [hd2]
        rfl

/-- Claim C2 (amended): after locating the identity, the *type-selector*
field is removed from the property mapping and never appears inside an
emitted Entry's properties; the path identity field, however, is not
removed and remains in the properties (as the counterexample shows). -/
theorem c2_type_field_removed {href tstr : String} {content : List Dict}
    {entries : List Entry}
    (h : saveworkerfunction href tstr content = .ok entries) :
    ∀ e ∈ entries, hasKey e.props tstr = false := by
  unfold saveworkerfunction at h
  cases hm : mkContents href content with
  | error e => rw [hm] at h; cases h
  | ok contents =>
    rw [hm] at h
    simp only [exBind_ok] at h
    cases hf : foldExc (processRecord tstr) ⟨[], none⟩ contents with
    | error e => rw [hf] at h; cases h
    | ok stf =>
      rw [hf] at h
      simp only [exBind_ok, Except.ok.injEq] at h
      rw [← h]
      exact foldExc_processRecord_inv (fun e => hasKey e.props tstr = false)
        hf (fun pr hpr rst hred tv pv _ _ => redactRecord_tstr_absent hred)
        (fun e he => absurd he (List.not_mem_nil e))
        (fun e he => by cases he)

/-- Claim C2 witness: on a concrete record the emitted Entry's properties
do not contain the type field. -/
theorem c2_type_field_removed_witness :
    hasKey (Entry.mk (.str "Bios.") (.str "/b")
      [("@odata.id", .str "/b"), ("Attr", .num 7)]).props "@odata.type"
      = false :=
  @c2_type_field_removed "@odata.id" "@odata.type"
    [[("@odata.id", .str "/b"), ("@odata.type", .str "Bios."),
      ("Attr", .num 7)]]
    [Entry.mk (.str "Bios.") (.str "/b")
      [("@odata.id", .str "/b"), ("Attr", .num 7)]] rfl
    (Entry.mk (.str "Bios.") (.str "/b")
      [("@odata.id", .str "/b"), ("Attr", .num 7)])
    (List.mem_cons_self _ _)

/-- Claim C4: redaction deletes every always-drop field present at top
level, and deletes a static address-assignment list exactly when it is
present and non-empty — an empty list is preserved unchanged, an absent
one stays absent. -/
theorem c4_redaction_field_classes {tstr : String} {path : Value}
    {values : Dict} {st' : RState}
    (hnd : (values.map Prod.fst).Nodup)
    (h : redactRecord tstr path values = .ok st') :
    (∀ name ∈ dropNames, hasKey st'.values name = false) ∧
    (∀ name ∈ staticNames, ∀ l : List Value,
      dictGet values name = some (.list l) →
      (if l.isEmpty then dictGet st'.values name = some (.list l)
       else hasKey st'.values name = false)) ∧
    (∀ name ∈ staticNames, dictGet values name = none →
      dictGet st'.values name = none) := by
  refine ⟨fun name hk => redactRecord_drop_absent h hk, ?_, ?_⟩
  · intro name hk l hl
    have hc := redactRecord_static_char hnd h hk
    rw [hl] at hc
    dsimp only at hc
    have ht : truthy (Value.list l) = !l.isEmpty := rfl
    rw [ht] at hc
    cases hemp : l.isEmpty with
    | true =>
      rw [hemp] at hc
      simp only [Bool.not_true, Bool.false_eq_true, if_false] at hc
      simp only [if_true]
      exact hc
    | false =>
      rw [hemp] at hc
      simp only [Bool.not_false, if_pos rfl] at hc
      simp only [Bool.false_eq_true, if_false]
      rw [hasKey_eq_isSome, hc]
      rfl
  · intro name hk hn
    have hc := redactRecord_static_char hnd h hk
    rw [hn] at hc
    dsimp only at hc
    exact hc

/-- Claim C4 witness: a concrete record with an always-drop field, an
empty static list (preserved) and a non-empty static list (deleted). -/
theorem c4_redaction_field_classes_witness :
    ∃ st', redactRecord "@odata.type" (.str "/p")
      [("IPv4StaticAddresses", Value.list []),
       ("IPv6StaticAddresses", Value.list [Value.str "fe80::1"]),
       ("MACAddress", Value.str "aa:bb"), ("Keep", Value.num 1)]
      = .ok st' ∧
    ((∀ name ∈ dropNames, hasKey st'.values name = false) ∧
     (∀ name ∈ staticNames, ∀ l : List Value,
       dictGet [("IPv4StaticAddresses", Value.list []),
         ("IPv6StaticAddresses", Value.list [Value.str "fe80::1"]),
         ("MACAddress", Value.str "aa:bb"), ("Keep", Value.num 1)] name
         = some (.list l) →
       (if l.isEmpty then dictGet st'.values name = some (.list l)
        else hasKey st'.values name = false)) ∧
     (∀ name ∈ staticNames,
       dictGet [("IPv4StaticAddresses", Value.list []),
         ("IPv6StaticAddresses", Value.list [Value.str "fe80::1"]),
         ("MACAddress", Value.str "aa:bb"), ("Keep", Value.num 1)] name
         = none →
       dictGet st'.values name = none)) :=
  ⟨⟨[("IPv4StaticAddresses", Value.list []), ("Keep", Value.num 1)],
    none, none⟩, rfl,
   @c4_redaction_field_classes "@odata.type" (.str "/p")
     [("IPv4StaticAddresses", Value.list []),
      ("IPv6StaticAddresses", Value.list [Value.str "fe80::1"]),
      ("MACAddress", Value.str "aa:bb"), ("Keep", Value.num 1)]
     ⟨[("IPv4StaticAddresses", Value.list []), ("Keep", Value.num 1)],
      none, none⟩ (by decide) rfl⟩

/-- Claim C5: when a protocol-config block (IPv4 / IPv6 / DHCPv4 /
DHCPv6) contains a `DNSServers` or `UseDNSServers` sub-field, redaction
removes that sub-field from the block and from the `Oem.Hpe.<block>`
mirror, so afterwards it is absent from both locations. -/
theorem c5_dns_scrubbed_both_sides {tstr : String} {path : Value}
    {values : Dict} {st' : RState} {k sub : String}
    {blk : List (String × Value)}
    (hnd : (values.map Prod.fst).Nodup)
    (h : redactRecord tstr path values = .ok st')
    (hk : k ∈ protoNames)
    (hv : dictGet values k = some (.obj blk))
    (hsub : sub = "DNSServers" ∨ sub = "UseDNSServers")
    (hs : hasKey blk sub = true) :
    (∃ blk', dictGet st'.values k = some (.obj blk') ∧
      hasKey blk' sub = false) ∧
    mirrorHas st'.values k sub = false := by
  rcases redactRecord_proto_mirror hnd h hk hv hsub hs with ⟨hm, hb⟩
  exact ⟨hb, hm⟩

/-- Claim C5 witness: a concrete record with an `IPv4` block carrying
`DNSServers` and a mirrored `Oem.Hpe.IPv4.DNSServers`; after redaction
both are gone. -/
theorem c5_dns_scrubbed_both_sides_witness :
    ∃ st', redactRecord "@odata.type" (.str "/p")
      [("IPv4", Value.obj [("DNSServers", Value.list [Value.str "1.1.1.1"]),
         ("Keep", Value.num 1)]),
       ("Oem", Value.obj [("Hpe", Value.obj [("IPv4", Value.obj
         [("DNSServers", Value.list [Value.str "1.1.1.1"]),
          ("M", Value.num 2)])])])]
      = .ok st' ∧
    ((∃ blk', dictGet st'.values "IPv4" = some (.obj blk') ∧
       hasKey blk' "DNSServers" = false) ∧
     mirrorHas st'.values "IPv4" "DNSServers" = false) :=
  ⟨⟨[("IPv4", Value.obj [("Keep", Value.num 1)]),
     ("Oem", Value.obj [("Hpe", Value.obj [("IPv4", Value.obj
       [("M", Value.num 2)])])])], none, none⟩, rfl,
   @c5_dns_scrubbed_both_sides "@odata.type" (.str "/p")
     [("IPv4", Value.obj [("DNSServers", Value.list [Value.str "1.1.1.1"]),
        ("Keep", Value.num 1)]),
      ("Oem", Value.obj [("Hpe", Value.obj [("IPv4", Value.obj
        [("DNSServers", Value.list [Value.str "1.1.1.1"]),
         ("M", Value.num 2)])])])]
     ⟨[("IPv4", Value.obj [("Keep", Value.num 1)]),
       ("Oem", Value.obj [("Hpe", Value.obj [("IPv4", Value.obj
         [("M", Value.num 2)])])])], none, none⟩
     "IPv4" "DNSServers"
     [("DNSServers", Value.list [Value.str "1.1.1.1"]),
      ("Keep", Value.num 1)]
     (by decide) rfl (by decide) rfl (Or.inl rfl) rfl⟩

/-- Claim C8: redaction is idempotent — when the per-record pass succeeds,
running it again on the redacted property mapping succeeds and leaves the
mapping unchanged. -/
theorem c8_redaction_idempotent {tstr : String} {path : Value}
    {values : Dict} {st' : RState}
    (hnd : (values.map Prod.fst).Nodup)
    (h : redactRecord tstr path values = .ok st') :
    redactRecord tstr path st'.values = .ok ⟨st'.values, none, none⟩ := by
  unfold redactRecord
  apply processKeys_inert
  intro k hk
  have hpres : hasKey st'.values k = true := (hasKey_iff_mem _ _).mpr hk
  apply redactStep_inert
  · intro hkt
    rw [hkt] at hpres
    rw [redactRecord_tstr_absent h] at hpres
    cases hpres
  · intro hdrop
    rw [redactRecord_drop_absent h hdrop] at hpres
    cases hpres
  · by_cases hstat : k ∈ staticNames
    · refine Or.inr ?_
      have hc := redactRecord_static_char hnd h hstat
      cases hov : dictGet values k with
      | none =>
        rw [hov] at hc
        dsimp only at hc
        rw [hasKey_eq_isSome, hc] at hpres
        cases hpres
      | some v =>
        rw [hov] at hc
        dsimp only at hc
        cases ht : truthy v with
        | true =>
          rw [ht, if_pos rfl] at hc
          rw [hasKey_eq_isSome, hc] at hpres
          cases hpres
        | false =>
          rw [ht] at hc
          simp only [Bool.false_eq_true, if_false] at hc
          exact ⟨v, hc, ht⟩
    · exact Or.inl hstat
  · by_cases hproto : k ∈ protoNames
    · exact Or.inr (@redactRecord_proto_clean tstr path values st' k hnd h hproto hpres)
    · exact Or.inl hproto

/-- Claim C8 witness: a concrete successful redaction pass whose output is
a fixed point of a second pass. -/
theorem c8_redaction_idempotent_witness :
    redactRecord "@odata.type" (.str "/p")
      [("IPv4", Value.obj [("Keep", Value.num 1)]),
       ("IPv4StaticAddresses", Value.list []), ("A", Value.num 3)]
      = .ok ⟨[("IPv4", Value.obj [("Keep", Value.num 1)]),
              ("IPv4StaticAddresses", Value.list []), ("A", Value.num 3)],
             none, none⟩ :=
  @c8_redaction_idempotent "@odata.type" (.str "/p")
    [("IPv4", Value.obj [("Keep", Value.num 1)]),
     ("IPv4StaticAddresses", Value.list []), ("A", Value.num 3)]
    ⟨[("IPv4", Value.obj [("Keep", Value.num 1)]),
      ("IPv4StaticAddresses", Value.list []), ("A", Value.num 3)],
     none, none⟩ (by decide) rfl

/-- Claim C10: a record whose protocol-config block (here parametrized by
`k` ∈ IPv4/IPv6/DHCPv4/DHCPv6) contains a `DNSServers` or `UseDNSServers`
sub-field but whose `Oem.Hpe.<block>` mirror chain is missing or lacks
that sub-field makes redaction raise a bare `KeyError` — an exception
outside the tool's error taxonomy — rather than completing (provided the
keys iterated before the block do not themselves abort the pass). -/
theorem c10_missing_mirror_keyerror {tstr : String} {path : Value}
    {values : Dict} {k sub : String} {blk : List (String × Value)}
    {l1 l2 : List String} {st1 : RState}
    (hnd : (values.map Prod.fst).Nodup)
    (heq : values.map Prod.fst = l1 ++ k :: l2)
    (hpre : processKeys tstr path l1 ⟨values, none, none⟩ = .ok st1)
    (hk : k ∈ protoNames)
    (hv : dictGet values k = some (.obj blk))
    (hsub : sub = "DNSServers" ∨ sub = "UseDNSServers")
    (hs : hasKey blk sub = true)
    (hm : mirrorKeyMissing values k sub = true) :
    redactRecord tstr path values = .error .keyError := by
  unfold redactRecord
  rw [heq, processKeys_append, hpre]
  simp only [exBind_ok, processKeys]
  suffices hstep : redactStep tstr path k st1 = .error .keyError by
    rw [hstep]
  have hnd2 := hnd
  rw [heq] at hnd2
  rcases nodup_split hnd2 with ⟨h1n, h2n⟩
  have hko := proto_ne_oem k hk
  have hv1 : dictGet st1.values k = some (.obj blk) := by
    rw [processKeys_get_not_mem hpre h1n hko]
    exact hv
  have hm1 : mirrorKeyMissing st1.values k sub = true :=
    processKeys_missing_pres hpre h1n hm
  unfold redactStep
  by_cases hkt : k = tstr
  · have ht : stepType tstr path k st1
        = .ok ⟨erase st1.values k, some (.obj blk), some path⟩ := by
      unfold stepType
      rw [if_pos hkt, hv1]
    rw [ht]
    simp only [exBind_ok]
    rw [stepDrop_of_not_mem _ (proto_not_drop k hk)]
    simp only [exBind_ok]
    rw [stepStatic_of_not_mem _ (proto_not_static k hk)]
    simp only [exBind_ok]
    unfold stepDNS
    rw [if_pos hk]
    have hnone : delDNSsub k "DNSServers"
        (RState.mk (erase st1.values k) (some (.obj blk)) (some path)).values
        = .error .keyError := by
      unfold delDNSsub
      rw [show (RState.mk (erase st1.values k) (some (Value.obj blk))
        (some path)).values = erase st1.values k from rfl]
      rw [dictGet_erase, if_pos rfl]
    rw [hnone]
    rfl
  · rw [stepType_of_ne st1 hkt]
    simp only [exBind_ok]
    rw [stepDrop_of_not_mem _ (proto_not_drop k hk)]
    simp only [exBind_ok]
    rw [stepStatic_of_not_mem _ (proto_not_static k hk)]
    simp only [exBind_ok]
    exact stepDNS_keyError hk hv1 hsub hs hm1

/-- Claim C10 witness: a concrete record whose `IPv4` block carries
`DNSServers` but has no `Oem` key at all; redaction raises `KeyError`. -/
theorem c10_missing_mirror_keyerror_witness :
    redactRecord "@odata.type" (.str "/p")
      [("IPv4", Value.obj [("DNSServers", Value.list [Value.str "1.1.1.1"]),
         ("X", Value.num 1)]), ("A", Value.num 2)]
      = .error .keyError :=
  @c10_missing_mirror_keyerror "@odata.type" (.str "/p")
    [("IPv4", Value.obj [("DNSServers", Value.list [Value.str "1.1.1.1"]),
       ("X", Value.num 1)]), ("A", Value.num 2)]
    "IPv4" "DNSServers"
    [("DNSServers", Value.list [Value.str "1.1.1.1"]), ("X", Value.num 1)]
    [] ["A"]
    ⟨[("IPv4", Value.obj [("DNSServers", Value.list [Value.str "1.1.1.1"]),
        ("X", Value.num 1)]), ("A", Value.num 2)], none, none⟩
    (by decide) rfl rfl (by decide) rfl (Or.inl rfl) rfl rfl

/-- The nested `links/self` convention resolves for a record: `links` and
`self` are dictionaries and the identity key is present. -/
def nestedResolves (href : String) (r : Dict) : Bool :=
  match dictGet r "links" with
  | some (.obj links) =>
    match dictGet links "self" with
    | some (.obj selfd) => hasKey selfd href
    | _ => false
  | _ => false

/-- A record is well-shaped for the nested lookup: its `links` value, when
present, is a dictionary, and that dictionary's `self` value, when
present, is a dictionary (otherwise the lookup raises `TypeError`, not
`KeyError`). -/
def wellShaped (r : Dict) : Bool :=
  match dictGet r "links" with
  | none => true
  | some (.obj links) =>
    match dictGet links "self" with
    | none => true
    | some (.obj _) => true
    | some _ => false
  | some _ => false

theorem lookupTop_of_hasKey {href : String} {r : Dict}
    (h : hasKey r href = true) : ∃ v, lookupTop href r = .ok (v, r) := by
  rcases dictGet_isSome_of_hasKey h with ⟨v, hv⟩
  refine ⟨v, ?_⟩
  unfold lookupTop
  rw [hv]

theorem lookupTop_of_not_hasKey {href : String} {r : Dict}
    (h : hasKey r href = false) : lookupTop href r = .error .keyError := by
  unfold lookupTop
  rw [(dictGet_eq_none_iff r href).mpr h]

theorem mapExc_lookupTop_ok {href : String} {content : List Dict}
    (h : ∀ r ∈ content, hasKey r href = true) :
    ∃ l, mapExc (lookupTop href) content = .ok l := by
  induction content with
  | nil => exact ⟨[], rfl⟩
  | cons r rest ih =>
    rcases lookupTop_of_hasKey (h r (List.mem_cons_self r rest)) with ⟨v, hv⟩
    rcases ih (fun r2 h2 => h r2 (List.mem_cons_of_mem r h2)) with ⟨l, hl⟩
    refine ⟨(v, r) :: l, ?_⟩
    simp only [mapExc, hv, exBind_ok, hl]

theorem mapExc_lookupTop_err {href : String} {content : List Dict}
    (h : ¬ ∀ r ∈ content, hasKey r href = true) :
    mapExc (lookupTop href) content = .error .keyError := by
  induction content with
  | nil => exact absurd (fun r hr => absurd hr (List.not_mem_nil r)) h
  | cons r rest ih =>
    cases hr : hasKey r href with
    | false =>
      simp only [mapExc, lookupTop_of_not_hasKey hr, exBind_error]
    | true =>
      rcases lookupTop_of_hasKey hr with ⟨v, hv⟩
      have hrest : ¬ ∀ r2 ∈ rest, hasKey r2 href = true := by
        intro hall
        exact h (fun r2 h2 => by
          rcases List.mem_cons.mp h2 with rfl | h2
          · exact hr
          · exact hall r2 h2)
      simp only [mapExc, hv, exBind_ok, ih hrest, exBind_error]

theorem lookupNested_of_resolves {href : String} {r : Dict}
    (h : nestedResolves href r = true) :
    ∃ v, lookupNested href r = .ok (v, r) := by
  unfold nestedResolves at h
  unfold lookupNested
  cases hl : dictGet r "links" with
  | none => rw [hl] at h; cases h
  | some vl =>
    rw [hl] at h
    cases vl with
    | obj links =>
      dsimp only at h ⊢
      cases hs : dictGet links "self" with
      | none => rw [hs] at h; cases h
      | some vs =>
        rw [hs] at h
        cases vs with
        | obj selfd =>
          dsimp only at h ⊢
          rcases dictGet_isSome_of_hasKey h with ⟨v, hv⟩
          refine ⟨v, ?_⟩
          rw [hv]
        | str s => cases h
        | num n => cases h
        | bool b => cases h
        | null => cases h
        | list l => cases h
    | str s => cases h
    | num n => cases h
    | bool b => cases h
    | null => cases h
    | list l => cases h

theorem lookupNested_of_not_resolves {href : String} {r : Dict}
    (hws : wellShaped r = true) (h : nestedResolves href r = false) :
    lookupNested href r = .error .keyError := by
  unfold wellShaped at hws
  unfold nestedResolves at h
  unfold lookupNested
  cases hl : dictGet r "links" with
  | none => rfl
  | some vl =>
    rw [hl] at h hws
    cases vl with
    | obj links =>
      dsimp only at h hws ⊢
      cases hs : dictGet links "self" with
      | none => rfl
      | some vs =>
        rw [hs] at h hws
        cases vs with
        | obj selfd =>
          dsimp only at h ⊢
          rw [(dictGet_eq_none_iff selfd href).mpr h]
        | str s => cases hws
        | num n => cases hws
        | bool b => cases hws
        | null => cases hws
        | list l => cases hws
    | str s => cases hws
    | num n => cases hws
    | bool b => cases hws
    | null => cases hws
    | list l => cases hws

theorem mapExc_lookupNested_ok {href : String} {content : List Dict}
    (h : ∀ r ∈ content, nestedResolves href r = true) :
    ∃ l, mapExc (lookupNested href) content = .ok l := by
  induction content with
  | nil => exact ⟨[], rfl⟩
  | cons r rest ih =>
    rcases lookupNested_of_resolves (h r (List.mem_cons_self r rest)) with
      ⟨v, hv⟩
    rcases ih (fun r2 h2 => h r2 (List.mem_cons_of_mem r h2)) with ⟨l, hl⟩
    refine ⟨(v, r) :: l, ?_⟩
    simp only [mapExc, hv, exBind_ok, hl]

theorem mapExc_lookupNested_err {href : String} {content : List Dict}
    (hws : ∀ r ∈ content, wellShaped r = true)
    (h : ¬ ∀ r ∈ content, nestedResolves href r = true) :
    mapExc (lookupNested href) content = .error .keyError := by
  induction content with
  | nil => exact absurd (fun r hr => absurd hr (List.not_mem_nil r)) h
  | cons r rest ih =>
    cases hr : nestedResolves href r with
    | false =>
      simp only [mapExc,
        lookupNested_of_not_resolves (hws r (List.mem_cons_self r rest)) hr,
        exBind_error]
    | true =>
      rcases lookupNested_of_resolves hr with ⟨v, hv⟩
      have hrest : ¬ ∀ r2 ∈ rest, nestedResolves href r2 = true := by
        intro hall
        exact h (fun r2 h2 => by
          rcases List.mem_cons.mp h2 with rfl | h2
          · exact hr
          · exact hall r2 h2)
      simp only [mapExc, hv, exBind_ok,
        ih (fun r2 h2 => hws r2 (List.mem_cons_of_mem r h2)) hrest,
        exBind_error]

theorem lookupTop_error_shape {href : String} {r : Dict} {e : PyErr}
    (h : lookupTop href r = .error e) : e = .keyError := by
  unfold lookupTop at h
  cases hv : dictGet r href with
  | none =>
    rw [hv] at h
    exact (Except.error.inj h).symm
  | some v =>
    rw [hv] at h
    cases h

theorem mapExc_lookupTop_error_shape {href : String} {content : List Dict}
    {e : PyErr} (h : mapExc (lookupTop href) content = .error e) :
    e = .keyError := by
  induction content with
  | nil => cases h
  | cons r rest ih =>
    simp only [mapExc] at h
    cases h1 : lookupTop href r with
    | error e2 =>
      rw [h1] at h
      simp only [exBind_error] at h
      rw [Except.error.inj h] at h1
      exact lookupTop_error_shape h1
    | ok pr =>
      rw [h1] at h
      simp only [exBind_ok] at h
      cases h2 : mapExc (lookupTop href) rest with
      | error e2 =>
        rw [h2] at h
        simp only [exBind_error] at h
        rw [Except.error.inj h] at h2
        exact ih h2
      | ok l =>
        rw [h2] at h
        cases h

theorem mkContents_corruption_iff {href : String} {content : List Dict}
    (hws : ∀ r ∈ content, wellShaped r = true) :
    mkContents href content = .error .corruption ↔
      (¬ ∀ r ∈ content, hasKey r href = true) ∧
      (¬ ∀ r ∈ content, nestedResolves href r = true) := by
  constructor
  · intro h
    unfold mkContents at h
    constructor
    · intro hall
      rcases mapExc_lookupTop_ok hall with ⟨l, hl⟩
      rw [hl] at h
      cases h
    · intro hall
      cases h1 : mapExc (lookupTop href) content with
      | ok l => rw [h1] at h; cases h
      | error e =>
        have he := mapExc_lookupTop_error_shape h1
        subst he
        rw [h1] at h
        rcases mapExc_lookupNested_ok hall with ⟨l, hl⟩
        rw [hl] at h
        cases h
  · rintro ⟨h1, h2⟩
    unfold mkContents
    rw [mapExc_lookupTop_err h1, mapExc_lookupNested_err hws h2]

/-! ## Error-shape lemmas: the key loop never raises the corruption error -/

theorem stepType_error_shape {tstr : String} {path : Value} {k : String}
    {st : RState} {e : PyErr} (h : stepType tstr path k st = .error e) :
    e = .keyError := by
  unfold stepType at h
  split at h
  · split at h
    · exact (Except.error.inj h).symm
    · cases h
  · cases h

theorem stepDrop_error_shape {k : String} {st : RState} {e : PyErr}
    (h : stepDrop k st = .error e) : e = .keyError := by
  unfold stepDrop at h
  split at h
  · split at h
    · cases h
    · exact (Except.error.inj h).symm
  · cases h

theorem stepStatic_error_shape {k : String} {st : RState} {e : PyErr}
    (h : stepStatic k st = .error e) : e = .keyError := by
  unfold stepStatic at h
  split at h
  · split at h
    · exact (Except.error.inj h).symm
    · split at h
      · cases h
      · cases h
  · cases h

theorem pyContains_error_shape {v : Value} {sub : String} {e : PyErr}
    (h : pyContains v sub = .error e) : e = .typeError := by
  unfold pyContains at h
  cases v with
  | obj d => cases h
  | list l => cases h
  | str s => cases h
  | num n => exact (Except.error.inj h).symm
  | bool b => exact (Except.error.inj h).symm
  | null => exact (Except.error.inj h).symm

theorem delNested1_error_shape {values : Dict} {k sub : String} {e : PyErr}
    (h : delNested1 values k sub = .error e) :
    e = .keyError ∨ e = .typeError := by
  unfold delNested1 at h
  split at h
  · exact Or.inl (Except.error.inj h).symm
  · split at h
    · cases h
    · exact Or.inl (Except.error.inj h).symm
  · exact Or.inr (Except.error.inj h).symm

theorem delOem_error_shape {values : Dict} {k sub : String} {e : PyErr}
    (h : delOem values k sub = .error e) :
    e = .keyError ∨ e = .typeError := by
  unfold delOem at h
  split at h
  · exact Or.inl (Except.error.inj h).symm
  · split at h
    · exact Or.inl (Except.error.inj h).symm
    · split at h
      · exact Or.inl (Except.error.inj h).symm
      · split at h
        · cases h
        · exact Or.inl (Except.error.inj h).symm
      · exact Or.inr (Except.error.inj h).symm
    · exact Or.inr (Except.error.inj h).symm
  · exact Or.inr (Except.error.inj h).symm

theorem delDNSsub_error_shape {k sub : String} {values : Dict} {e : PyErr}
    (h : delDNSsub k sub values = .error e) :
    e = .keyError ∨ e = .typeError := by
  unfold delDNSsub at h
  cases hv : dictGet values k with
  | none =>
    rw [hv] at h
    exact Or.inl (Except.error.inj h).symm
  | some v =>
    rw [hv] at h
    dsimp only at h
    cases hc : pyContains v sub with
    | error e2 =>
      rw [hc] at h
      simp only [exBind_error] at h
      rw [Except.error.inj h] at hc
      exact Or.inr (pyContains_error_shape hc)
    | ok c =>
      rw [hc] at h
      simp only [exBind_ok] at h
      cases c with
      | false => simp at h
      | true =>
        simp only [if_true] at h
        cases h1 : delNested1 values k sub with
        | error e2 =>
          rw [h1] at h
          simp only [exBind_error] at h
          rw [Except.error.inj h] at h1
          exact delNested1_error_shape h1
        | ok v1 =>
          rw [h1] at h
          simp only [exBind_ok] at h
          exact delOem_error_shape h

theorem stepDNS_error_shape {k : String} {st : RState} {e : PyErr}
    (h : stepDNS k st = .error e) : e = .keyError ∨ e = .typeError := by
  unfold stepDNS at h
  split at h
  · cases h1 : delDNSsub k "DNSServers" st.values with
    | error e2 =>
      rw [h1] at h
      simp only [exBind_error] at h
      rw [Except.error.inj h] at h1
      exact delDNSsub_error_shape h1
    | ok v1 =>
      rw [h1] at h
      simp only [exBind_ok] at h
      cases h2 : delDNSsub k "UseDNSServers" v1 with
      | error e2 =>
        rw [h2] at h
        simp only [exBind_error] at h
        rw [Except.error.inj h] at h2
        exact delDNSsub_error_shape h2
      | ok v2 =>
        rw [h2] at h
        cases h
  · cases h

theorem redactStep_error_shape {tstr : String} {path : Value} {k : String}
    {st : RState} {e : PyErr} (h : redactStep tstr path k st = .error e) :
    e = .keyError ∨ e = .typeError := by
  unfold redactStep at h
  cases h1 : stepType tstr path k st with
  | error e2 =>
    rw [h1] at h
    simp only [exBind_error] at h
    rw [Except.error.inj h] at h1
    exact Or.inl (stepType_error_shape h1)
  | ok st1 =>
    rw [h1] at h
    simp only [exBind_ok] at h
    cases h2 : stepDrop k st1 with
    | error e2 =>
      rw [h2] at h
      simp only [exBind_error] at h
      rw [Except.error.inj h] at h2
      exact Or.inl (stepDrop_error_shape h2)
    | ok st2 =>
      rw [h2] at h
      simp only [exBind_ok] at h
      cases h3 : stepStatic k st2 with
      | error e2 =>
        rw [h3] at h
        simp only [exBind_error] at h
        rw [Except.error.inj h] at h3
        exact Or.inl (stepStatic_error_shape h3)
      | ok st3 =>
        rw [h3] at h
        simp only [exBind_ok] at h
        exact stepDNS_error_shape h

theorem processKeys_error_shape {tstr : String} {path : Value}
    {ks : List String} {st : RState} {e : PyErr}
    (h : processKeys tstr path ks st = .error e) :
    e = .keyError ∨ e = .typeError := by
  induction ks generalizing st with
  | nil => cases h
  | cons k ks ih =>
    simp only [processKeys] at h
    cases hr : redactStep tstr path k st with
    | error e2 =>
      rw [hr] at h
      rw [Except.error.inj h] at hr
      exact redactStep_error_shape hr
    | ok st1 =>
      rw [hr] at h
      exact ih h

theorem processRecord_error_shape {tstr : String} {st : ExtractState}
    {rec : Value × Dict} {e : PyErr}
    (h : processRecord tstr st rec = .error e) : ¬ e = .corruption := by
  unfold processRecord at h
  cases hr : processKeys tstr rec.1 (rec.2.map Prod.fst)
      ⟨rec.2, none, none⟩ with
  | error e2 =>
    rw [hr] at h
    simp only [exBind_error] at h
    rw [Except.error.inj h] at hr
    rcases processKeys_error_shape hr with rfl | rfl
    · intro hc; cases hc
    · intro hc; cases hc
  | ok rst =>
    rw [hr] at h
    simp only [exBind_ok] at h
    by_cases hemp : rst.values.isEmpty
    · rw [if_pos hemp] at h
      simp only [exBind_ok] at h
      cases htc : st.tempcontents with
      | none =>
        rw [htc] at h
        rw [← Except.error.inj h]
        intro hc; cases hc
      | some e0 => rw [htc] at h; cases h
    · rw [if_neg hemp] at h
      cases hts : rst.tsel with
      | none =>
        rw [hts] at h
        simp only [exBind_error] at h
        rw [← Except.error.inj h]
        intro hc; cases hc
      | some tv =>
        cases hps : rst.psel with
        | none =>
          rw [hts, hps] at h
          simp only [exBind_error] at h
          rw [← Except.error.inj h]
          intro hc; cases hc
        | some pv =>
          rw [hts, hps] at h
          dsimp only at h
          by_cases htr : truthy tv && truthy pv
          · rw [if_pos htr] at h
            simp only [exBind_ok] at h
            cases h
          · rw [if_neg htr] at h
            simp only [exBind_error] at h
            rw [← Except.error.inj h]
            intro hc; cases hc

theorem foldExc_processRecord_error_shape {tstr : String}
    {contents : List (Value × Dict)} {st : ExtractState} {e : PyErr}
    (h : foldExc (processRecord tstr) st contents = .error e) :
    ¬ e = .corruption := by
  induction contents generalizing st with
  | nil => cases h
  | cons pr rest ih =>
    simp only [foldExc] at h
    cases hp : processRecord tstr st pr with
    | error e2 =>
      rw [hp] at h
      rw [Except.error.inj h] at hp
      exact processRecord_error_shape hp
    | ok st1 =>
      rw [hp] at h
      exact ih h

/-- Claim C3 (amended): extraction raises `iLORisCorruptionError` exactly
when *not every* record carries the top-level identity field and *not
every* record resolves under the `links/self` convention — the fallback is
per batch, not per record (assuming the `links` chains that are present
are dictionary-shaped, since a non-dictionary link raises `TypeError`
instead). -/
theorem c3_corruption_iff {href tstr : String} {content : List Dict}
    (hws : ∀ r ∈ content, wellShaped r = true) :
    saveworkerfunction href tstr content = .error .corruption ↔
      (¬ ∀ r ∈ content, hasKey r href = true) ∧
      (¬ ∀ r ∈ content, nestedResolves href r = true) := by
  constructor
  · intro h
    unfold saveworkerfunction at h
    cases hm : mkContents href content with
    | error e =>
      rw [hm] at h
      simp only [exBind_error] at h
      rw [Except.error.inj h] at hm
      exact (mkContents_corruption_iff hws).mp hm
    | ok contents =>
      rw [hm] at h
      simp only [exBind_ok] at h
      cases hf : foldExc (processRecord tstr) ⟨[], none⟩ contents with
      | error e =>
        rw [hf] at h
        simp only [exBind_error] at h
        rw [Except.error.inj h] at hf
        exact absurd rfl (foldExc_processRecord_error_shape hf)
      | ok stf =>
        rw [hf] at h
        simp only [exBind_ok] at h
        cases h
  · intro hcc
    unfold saveworkerfunction
    rw [(mkContents_corruption_iff hws).mpr hcc]
    rfl

/-- Claim C3 (amended) witness: the mixed-convention batch satisfies the
right-hand side, and extraction indeed raises the corruption error. -/
theorem c3_corruption_iff_witness :
    saveworkerfunction "@odata.id" "@odata.type"
      [[("@odata.id", .str "/a"), ("A", .num 1)],
       [("links", .obj [("self", .obj [("@odata.id", .str "/b")])]),
        ("B", .num 2)]]
      = .error .corruption :=
  (@c3_corruption_iff "@odata.id" "@odata.type"
    [[("@odata.id", .str "/a"), ("A", .num 1)],
     [("links", .obj [("self", .obj [("@odata.id", .str "/b")])]),
      ("B", .num 2)]]
    (by decide)).mpr (by decide)

/-- Claim C6: assembly fails with `NothingSelectedError` iff every
extraction pass is empty; otherwise it succeeds, the header is element
zero of the snapshot, and the entries follow in exactly the order the
passes produced them. -/
theorem c6_assembly_header_or_nothing (headers : Value)
    (passes : List (List Entry)) :
    (assemble headers passes = .error .nothingSelected ↔
      ∀ p ∈ passes, p = []) ∧
    ((∃ p ∈ passes, p ≠ []) →
      assemble headers passes
        = .ok (.header headers :: passes.flatten.map .entry)) := by
  constructor
  · constructor
    · intro h
      unfold assemble at h
      by_cases he : passes.flatten.isEmpty
      · exact List.flatten_eq_nil_iff.mp (List.isEmpty_iff.mp he)
      · rw [if_neg he] at h
        cases h
    · intro hall
      unfold assemble
      rw [if_pos (List.isEmpty_iff.mpr (List.flatten_eq_nil_iff.mpr hall))]
  · rintro ⟨p, hp, hne⟩
    unfold assemble
    rw [if_neg ?_]
    · rfl
    · intro he
      exact hne (List.flatten_eq_nil_iff.mp (List.isEmpty_iff.mp he) p hp)

/-- Claim C6 witness: an all-empty pass list fails, and a pass list with
one entry assembles to header-then-entry. -/
theorem c6_assembly_header_or_nothing_witness :
    (assemble (Value.str "hdr") [[], []] = .error .nothingSelected ↔
      ∀ p ∈ [([] : List Entry), []], p = []) ∧
    assemble (Value.str "hdr")
      [[], [Entry.mk (.str "T.") (.str "/p") [("A", Value.num 1)]]]
      = .ok [.header (Value.str "hdr"),
             .entry (Entry.mk (.str "T.") (.str "/p") [("A", Value.num 1)])] :=
  ⟨(c6_assembly_header_or_nothing (Value.str "hdr") [[], []]).1,
   (c6_assembly_header_or_nothing (Value.str "hdr")
     [[], [Entry.mk (.str "T.") (.str "/p") [("A", Value.num 1)]]]).2
     ⟨[Entry.mk (.str "T.") (.str "/p") [("A", Value.num 1)]],
      List.mem_cons_of_mem _ (List.mem_cons_self _ _), by simp⟩⟩

/-- Claim C9: the save operation is all-or-nothing — whenever any stage
raises a fatal error, the destination file is never opened and no bytes
are written (the effect trace is empty).  Serialization and enciphering
are modelled from the spec as total functions of the assembled snapshot,
so the only fatal stages are extraction and assembly, both of which run
before the file is opened. -/
theorem c9_error_writes_nothing {href tstr : String} {headers : Value}
    {batches : List (List Dict)} {encryption : Option String}
    {filename : String} {e : PyErr}
    (h : (runSave href tstr headers batches encryption filename).1
      = .error e) :
    (runSave href tstr headers batches encryption filename).2 = [] := by
  unfold runSave at h ⊢
  cases hf : foldExc (fun acc b =>
      exBind (saveworkerfunction href tstr b) fun l => .ok (acc ++ l))
      [] batches with
  | error e2 => rfl
  | ok contents =>
    rw [hf] at h
    dsimp only at h ⊢
    cases ha : assemble headers [contents] with
    | error e2 => rfl
    | ok snap =>
      rw [ha] at h
      cases h

/-- Claim C9 witness: an empty selection aborts with
`NothingSelectedError` and the effect trace is empty. -/
theorem c9_error_writes_nothing_witness :
    (runSave "@odata.id" "@odata.type" (Value.str "hdr") [[]] none
      "ilorest.json").1 = .error .nothingSelected ∧
    (runSave "@odata.id" "@odata.type" (Value.str "hdr") [[]] none
      "ilorest.json").2 = [] :=
  ⟨rfl, @c9_error_writes_nothing "@odata.id" "@odata.type" (Value.str "hdr")
    [[]] none "ilorest.json" .nothingSelected rfl⟩

/-! ## Canonical-sort lemmas -/

theorem pairLe_trans : ∀ a b c : String × Value,
    pairLe a b → pairLe b c → pairLe a c := by
  intro a b c h1 h2
  simp only [pairLe, decide_eq_true_eq] at h1 h2 ⊢
  exact le_trans h1 h2

theorem pairLe_total : ∀ a b : String × Value, pairLe a b || pairLe b a := by
  intro a b
  simp only [pairLe, Bool.or_eq_true, decide_eq_true_eq]
  exact le_total a.1 b.1

theorem sortPairs_eq_map (l : List (String × Value)) :
    sortPairs l = l.map (fun p => (p.1, sortVal p.2)) := by
  induction l with
  | nil => rfl
  | cons p rest ih =>
    cases p with
    | mk k v => simp only [sortPairs, ih, List.map_cons]

theorem mem_sortPairs {l : List (String × Value)} {p : String × Value}
    (h : p ∈ sortPairs l) : ∃ q ∈ l, p = (q.1, sortVal q.2) := by
  rw [sortPairs_eq_map] at h
  rcases List.mem_map.mp h with ⟨q, hq, hpq⟩
  exact ⟨q, hq, hpq.symm⟩

theorem sizeOf_snd_lt_obj {d : List (String × Value)} {q : String × Value}
    (hq : q ∈ d) : sizeOf q.2 < sizeOf (Value.obj d) := by
  have h1 := List.sizeOf_lt_of_mem hq
  cases q with
  | mk qk qv =>
    simp only [Prod.mk.sizeOf_spec] at h1
    simp only [Value.obj.sizeOf_spec]
    omega

theorem sortVal_idem_aux : ∀ n : Nat, ∀ v : Value, sizeOf v < n →
    sortVal (sortVal v) = sortVal v := by
  intro n
  induction n with
  | zero => intro v hv; exact absurd hv (Nat.not_lt_zero _)
  | succ n ih =>
    intro v hv
    cases v with
    | obj d =>
      show Value.obj (List.mergeSort
          (sortPairs (List.mergeSort (sortPairs d) pairLe)) pairLe)
        = Value.obj (List.mergeSort (sortPairs d) pairLe)
      have hfix : sortPairs (List.mergeSort (sortPairs d) pairLe)
          = List.mergeSort (sortPairs d) pairLe := by
        rw [sortPairs_eq_map]
        have hpt : ∀ p ∈ List.mergeSort (sortPairs d) pairLe,
            (fun p : String × Value => (p.1, sortVal p.2)) p = id p := by
          intro p hp
          have hp2 : p ∈ sortPairs d :=
            (List.mergeSort_perm (sortPairs d) pairLe).subset hp
          rcases mem_sortPairs hp2 with ⟨q, hq, rfl⟩
          have hsz : sizeOf q.2 < n := by
            have := sizeOf_snd_lt_obj hq
            omega
          show (q.1, sortVal (sortVal q.2)) = (q.1, sortVal q.2)
          rw [ih q.2 hsz]
        rw [List.map_congr_left hpt, List.map_id]
      rw [hfix, List.mergeSort_of_sorted
        (List.sorted_mergeSort pairLe_trans pairLe_total (sortPairs d))]
    | str s => rfl
    | num n2 => rfl
    | bool b => rfl
    | null => rfl
    | list l => rfl

theorem sortVal_idem (v : Value) : sortVal (sortVal v) = sortVal v :=
  sortVal_idem_aux (sizeOf v + 1) v (Nat.lt_succ_self _)

theorem sortPairs_fix (d : Dict) :
    sortPairs (nested_sort d) = nested_sort d := by
  unfold nested_sort
  rw [sortPairs_eq_map]
  have hpt : ∀ p ∈ List.mergeSort (sortPairs d) pairLe,
      (fun p : String × Value => (p.1, sortVal p.2)) p = id p := by
    intro p hp
    have hp2 : p ∈ sortPairs d :=
      (List.mergeSort_perm (sortPairs d) pairLe).subset hp
    rcases mem_sortPairs hp2 with ⟨q, hq, rfl⟩
    show (q.1, sortVal (sortVal q.2)) = (q.1, sortVal q.2)
    rw [sortVal_idem]
  rw [List.map_congr_left hpt, List.map_id]

theorem nested_sort_idem (d : Dict) :
    nested_sort (nested_sort d) = nested_sort d := by
  show List.mergeSort (sortPairs (nested_sort d)) pairLe = nested_sort d
  rw [sortPairs_fix]
  exact List.mergeSort_of_sorted
    (List.sorted_mergeSort pairLe_trans pairLe_total (sortPairs d))

theorem pairwise_lt_of_le_nodup {l : List (String × Value)}
    (hs : List.Pairwise (fun a b => pairLe a b = true) l)
    (hnd : (l.map Prod.fst).Nodup) :
    List.Pairwise (fun a b : String × Value => a.1 < b.1) l := by
  have hnd2 : List.Pairwise (fun a b : String × Value => a.1 ≠ b.1) l :=
    List.pairwise_map.mp hnd
  refine (hs.and hnd2).imp ?_
  intro a b hab
  rcases hab with ⟨h1, h2⟩
  simp only [pairLe, decide_eq_true_eq] at h1
  exact lt_of_le_of_ne h1 h2

theorem nested_sort_keys_perm (d : Dict) :
    ((nested_sort d).map Prod.fst).Perm (d.map Prod.fst) := by
  unfold nested_sort
  have h1 := (List.mergeSort_perm (sortPairs d) pairLe).map Prod.fst
  have h2 : (sortPairs d).map Prod.fst = d.map Prod.fst := by
    rw [sortPairs_eq_map, List.map_map]
    rfl
  rw [h2] at h1
  exact h1

theorem nested_sort_perm_eq {d1 d2 : Dict} (hperm : d1.Perm d2)
    (hnd : (d1.map Prod.fst).Nodup) : nested_sort d1 = nested_sort d2 := by
  haveI : IsAntisymm (String × Value) (fun a b => a.1 < b.1) :=
    ⟨fun a b h1 h2 => absurd h1 (lt_asymm h2)⟩
  have hp : (nested_sort d1).Perm (nested_sort d2) := by
    refine (List.mergeSort_perm (sortPairs d1) pairLe).trans
      (List.Perm.trans ?_ (List.mergeSort_perm (sortPairs d2) pairLe).symm)
    rw [sortPairs_eq_map, sortPairs_eq_map]
    exact hperm.map _
  have hn1 : ((nested_sort d1).map Prod.fst).Nodup :=
    ((nested_sort_keys_perm d1).nodup_iff).mpr hnd
  have hn2 : ((nested_sort d2).map Prod.fst).Nodup := by
    refine ((nested_sort_keys_perm d2).nodup_iff).mpr ?_
    exact ((hperm.map Prod.fst).nodup_iff).mp hnd
  exact @List.eq_of_perm_of_sorted (String × Value)
    (fun a b => a.1 < b.1) _ _ _ hp
    (pairwise_lt_of_le_nodup
      (List.sorted_mergeSort pairLe_trans pairLe_total (sortPairs d1)) hn1)
    (pairwise_lt_of_le_nodup
      (List.sorted_mergeSort pairLe_trans pairLe_total (sortPairs d2)) hn2)

theorem dictCanon_of_sorted : ∀ l : List (String × Value),
    List.Pairwise (fun a b => pairLe a b = true) l →
    (∀ p ∈ l, valCanon p.2 = true) → dictCanon l = true := by
  intro l
  induction l with
  | nil => intro _ _; rfl
  | cons p rest ih =>
    intro hp hv
    cases rest with
    | nil =>
      show valCanon p.2 = true
      exact hv p (List.mem_cons_self p [])
    | cons q rest2 =>
      have h1 : pairLe p q = true :=
        (List.pairwise_cons.mp hp).1 q (List.mem_cons_self q rest2)
      have h2 := hv p (List.mem_cons_self p (q :: rest2))
      have h3 := ih (List.pairwise_cons.mp hp).2
        (fun p2 hp2 => hv p2 (List.mem_cons_of_mem p hp2))
      show (pairLe p q && valCanon p.2 && dictCanon (q :: rest2)) = true
      rw [h1, h2, h3]
      rfl

theorem valCanon_sortVal_aux : ∀ n : Nat, ∀ v : Value, sizeOf v < n →
    valCanon (sortVal v) = true := by
  intro n
  induction n with
  | zero => intro v hv; exact absurd hv (Nat.not_lt_zero _)
  | succ n ih =>
    intro v hv
    cases v with
    | obj d =>
      show dictCanon (List.mergeSort (sortPairs d) pairLe) = true
      refine dictCanon_of_sorted _
        (List.sorted_mergeSort pairLe_trans pairLe_total (sortPairs d)) ?_
      intro p hp
      have hp2 : p ∈ sortPairs d :=
        (List.mergeSort_perm (sortPairs d) pairLe).subset hp
      rcases mem_sortPairs hp2 with ⟨q, hq, rfl⟩
      have hsz : sizeOf q.2 < n := by
        have := sizeOf_snd_lt_obj hq
        omega
      exact ih q.2 hsz
    | str s => rfl
    | num n2 => rfl
    | bool b => rfl
    | null => rfl
    | list l => rfl

theorem nested_sort_canon (d : Dict) : dictCanon (nested_sort d) = true := by
  unfold nested_sort
  refine dictCanon_of_sorted _
    (List.sorted_mergeSort pairLe_trans pairLe_total (sortPairs d)) ?_
  intro p hp
  have hp2 : p ∈ sortPairs d :=
    (List.mergeSort_perm (sortPairs d) pairLe).subset hp
  rcases mem_sortPairs hp2 with ⟨q, hq, rfl⟩
  exact valCanon_sortVal_aux (sizeOf q.2 + 1) q.2 (Nat.lt_succ_self _)

/-- Claim C7: the canonical sort is idempotent, order-independent on
mappings with duplicate-free keys (two permutations of the same key/value
pairs sort to identical output), and its output is deeply canonical —
every dictionary reached through dictionary values is key-sorted, i.e.
nested mappings were sorted before the mapping containing them. -/
theorem c7_nested_sort_properties {d1 d2 : Dict}
    (hnd : (d1.map Prod.fst).Nodup) (hperm : d1.Perm d2) :
    nested_sort (nested_sort d1) = nested_sort d1 ∧
    nested_sort d1 = nested_sort d2 ∧
    dictCanon (nested_sort d1) = true :=
  ⟨nested_sort_idem d1, nested_sort_perm_eq hperm hnd, nested_sort_canon d1⟩

/-- Claim C7 witness: a two-key mapping with one nested mapping, against
its own reversal. -/
theorem c7_nested_sort_properties_witness :
    nested_sort (nested_sort [("b", Value.num 1),
      ("a", Value.obj [("z", Value.num 1), ("y", Value.num 2)])])
      = nested_sort [("b", Value.num 1),
          ("a", Value.obj [("z", Value.num 1), ("y", Value.num 2)])] ∧
    nested_sort [("b", Value.num 1),
      ("a", Value.obj [("z", Value.num 1), ("y", Value.num 2)])]
      = nested_sort [("a", Value.obj [("z", Value.num 1),
          ("y", Value.num 2)]), ("b", Value.num 1)] ∧
    dictCanon (nested_sort [("b", Value.num 1),
      ("a", Value.obj [("z", Value.num 1), ("y", Value.num 2)])]) = true :=
  c7_nested_sort_properties (by decide)
    (List.Perm.swap ("a", Value.obj [("z", Value.num 1),
      ("y", Value.num 2)]) ("b", Value.num 1) [])

end Save
